import Mathlib

/-!
# Verification of the Task-Scheduler core (src/Task-Scheduler)

A shallow embedding of the in-process task scheduler found in
`src/Task-Scheduler/src/{task_scheduler,dependency_manager,prioirity_queue}.cpp`
and the headers under `src/Task-Scheduler/include/scheduler/`.

Modelling conventions:
* `std::unordered_map<TaskId, V>` is modelled as an association list
  `List (Nat × V)` with first-match lookup, in-place update and erase.
* `std::unordered_set<TaskId>` inside the dependents map is modelled as a
  duplicate-free `List Nat`; the DFS bookkeeping sets `visited`/`rec_stack`
  are modelled as `Finset Nat`.
* `std::atomic<int>` dependency counters are modelled as `Int`.
* The opaque callable of a task is not modelled; the instrumentation field
  `executed` records whether the callable has been invoked.
* Each public operation of the scheduler is one atomic step of a transition
  system; the worker-side execution is split into a `start_probe` step
  (pop from the ready queue, begin `Task::execute`) and a `finish_task`
  step (the callable returns; completion bookkeeping runs), which exposes
  the `RUNNING` window of the real concurrent system.
* The implementation of `Task::execute` is not present under `src/`
  (`src/Task-Scheduler/src/task.cpp` actually contains thread-pool code, and
  only the declaration in `task.hpp` exists), so its body is modelled from
  the spec, §4.1; see `start_probe`/`finish_task` below.
-/

deriving instance DecidableEq for Except

namespace TaskSched

/-! ## Association-list primitives (model of unordered_map) -/

/-- First-match lookup in an association list, as `unordered_map::find`. -/
def lookupA {α : Type} : List (Nat × α) → Nat → Option α
  | [], _ => none
  | (k, v) :: rest, k' => if k = k' then some v else lookupA rest k'

/-- Insert-or-update, as `unordered_map::operator[] = v`. -/
def insertA {α : Type} : List (Nat × α) → Nat → α → List (Nat × α)
  | [], k, v => [(k, v)]
  | (k', v') :: rest, k, v =>
      if k' = k then (k, v) :: rest else (k', v') :: insertA rest k v

/-- Erase a key, as `unordered_map::erase(key)`. -/
def eraseA {α : Type} (m : List (Nat × α)) (k : Nat) : List (Nat × α) :=
  m.filter (fun p => p.1 ≠ k)

@[simp] theorem lookupA_nil {α : Type} (k : Nat) : lookupA ([] : List (Nat × α)) k = none := rfl

theorem lookupA_insertA_self {α : Type} (m : List (Nat × α)) (k : Nat) (v : α) :
    lookupA (insertA m k v) k = some v := by
  induction m with
  | nil => simp [insertA, lookupA]
  | cons p rest ih =>
    obtain ⟨k', v'⟩ := p
    by_cases h : k' = k
    · simp [insertA, h, lookupA]
    · simp [insertA, h, lookupA, ih]

theorem lookupA_insertA_ne {α : Type} (m : List (Nat × α)) (k k' : Nat) (v : α)
    (h : k ≠ k') : lookupA (insertA m k v) k' = lookupA m k' := by
  induction m with
  | nil => simp [insertA, lookupA, h]
  | cons p rest ih =>
    obtain ⟨k₀, v₀⟩ := p
    by_cases h₀ : k₀ = k
    · subst h₀
      simp [insertA, lookupA, h]
    · simp [insertA, h₀, lookupA, ih]

theorem eraseA_cons {α : Type} (k₀ : Nat) (v₀ : α) (rest : List (Nat × α)) (k : Nat) :
    eraseA ((k₀, v₀) :: rest) k =
      if k₀ = k then eraseA rest k else (k₀, v₀) :: eraseA rest k := by
  by_cases h : k₀ = k <;> simp [eraseA, List.filter_cons, h]

theorem lookupA_eraseA_self {α : Type} (m : List (Nat × α)) (k : Nat) :
    lookupA (eraseA m k) k = none := by
  induction m with
  | nil => rfl
  | cons p rest ih =>
    obtain ⟨k₀, v₀⟩ := p
    rw [eraseA_cons]
    by_cases h₀ : k₀ = k
    · simpa [h₀] using ih
    · simp [h₀, lookupA, ih]

theorem lookupA_eraseA_ne {α : Type} (m : List (Nat × α)) (k k' : Nat) (h : k ≠ k') :
    lookupA (eraseA m k) k' = lookupA m k' := by
  induction m with
  | nil => rfl
  | cons p rest ih =>
    obtain ⟨k₀, v₀⟩ := p
    rw [eraseA_cons]
    by_cases h₀ : k₀ = k
    · subst h₀
      simp [lookupA, h, ih]
    · by_cases h₁ : k₀ = k'
      · simp [lookupA, h₁, h₀, Ne.symm h]
      · simp [lookupA, h₀, h₁, ih]

theorem lookupA_mem {α : Type} {m : List (Nat × α)} {k : Nat} {v : α}
    (h : lookupA m k = some v) : (k, v) ∈ m := by
  induction m with
  | nil => simp [lookupA] at h
  | cons p rest ih =>
    obtain ⟨k₀, v₀⟩ := p
    by_cases h₀ : k₀ = k
    · subst h₀
      simp [lookupA] at h
      simp [h]
    · simp [lookupA, h₀] at h
      exact List.mem_cons_of_mem _ (ih h)

theorem lookupA_isSome_iff_mem_keys {α : Type} (m : List (Nat × α)) (k : Nat) :
    (lookupA m k).isSome ↔ k ∈ m.map Prod.fst := by
  induction m with
  | nil => simp [lookupA]
  | cons p rest ih =>
    obtain ⟨k₀, v₀⟩ := p
    by_cases h₀ : k₀ = k
    · subst h₀
      simp [lookupA]
    · simp [lookupA, h₀, ih, Ne.symm h₀]

theorem lookupA_eq_none_of_not_mem_keys {α : Type} {m : List (Nat × α)} {k : Nat}
    (h : k ∉ m.map Prod.fst) : lookupA m k = none := by
  cases hl : lookupA m k with
  | none => rfl
  | some v =>
    exact absurd ((lookupA_isSome_iff_mem_keys m k).1 (by simp [hl])) h

theorem keys_insertA {α : Type} (m : List (Nat × α)) (k : Nat) (v : α) :
    ((insertA m k v).map Prod.fst) =
      if k ∈ m.map Prod.fst then m.map Prod.fst else m.map Prod.fst ++ [k] := by
  induction m with
  | nil => simp [insertA]
  | cons p rest ih =>
    obtain ⟨k₀, v₀⟩ := p
    by_cases h₀ : k₀ = k
    · subst h₀
      simp [insertA]
    · have h₀' : k ≠ k₀ := Ne.symm h₀
      simp [insertA, h₀, ih, h₀']
      by_cases hk : k ∈ rest.map Prod.fst <;> simp [hk, h₀']

theorem keys_insertA_nodup {α : Type} {m : List (Nat × α)} (k : Nat) (v : α)
    (h : (m.map Prod.fst).Nodup) : ((insertA m k v).map Prod.fst).Nodup := by
  rw [keys_insertA]
  by_cases hk : k ∈ m.map Prod.fst
  · simpa [hk]
  · simp only [hk, if_false]
    refine h.append (List.nodup_singleton k) ?_
    intro a ha hb
    simp only [List.mem_singleton] at hb
    subst hb
    exact hk ha

theorem keys_eraseA_sublist {α : Type} (m : List (Nat × α)) (k : Nat) :
    ((eraseA m k).map Prod.fst).Sublist (m.map Prod.fst) :=
  List.Sublist.map Prod.fst (List.filter_sublist m)

theorem keys_eraseA_nodup {α : Type} {m : List (Nat × α)} (k : Nat)
    (h : (m.map Prod.fst).Nodup) : ((eraseA m k).map Prod.fst).Nodup :=
  (keys_eraseA_sublist m k).nodup h

theorem mem_insertA {α : Type} {m : List (Nat × α)} {k : Nat} {v : α} {p : Nat × α}
    (h : p ∈ insertA m k v) : p ∈ m ∨ p = (k, v) := by
  induction m with
  | nil => simp [insertA] at h; simp [h]
  | cons q rest ih =>
    obtain ⟨k₀, v₀⟩ := q
    by_cases h₀ : k₀ = k
    · subst h₀
      simp [insertA] at h
      rcases h with h | h
      · right; simp [h]
      · left; exact List.mem_cons_of_mem _ h
    · simp [insertA, h₀] at h
      rcases h with h | h
      · left; simp [h]
      · rcases ih h with h' | h'
        · left; exact List.mem_cons_of_mem _ h'
        · right; exact h'

theorem mem_eraseA {α : Type} {m : List (Nat × α)} {k : Nat} {p : Nat × α}
    (h : p ∈ eraseA m k) : p ∈ m :=
  List.mem_of_mem_filter h

/-! ## Core data model: TaskState, Priority, Task (task.hpp) -/

/-- `TaskState` from task.hpp. -/
inductive TaskState where
  | PENDING
  | READY
  | RUNNING
  | COMPLETED
  | CANCELLED
deriving DecidableEq, Repr

/-- `Priority` from task.hpp (`LOW = 0, NORMAL = 1, HIGH = 2`). -/
inductive Priority where
  | LOW
  | NORMAL
  | HIGH
deriving DecidableEq, Repr

/-- The underlying integer of `Priority`, as in `static_cast<int>`. -/
def priNat : Priority → Nat
  | .LOW => 0
  | .NORMAL => 1
  | .HIGH => 2

/-- The `Task` class (task.hpp).  The callable `work_` is opaque and not
modelled; the instrumentation field `executed` records whether the callable
has been invoked (used to state that a cancelled task's callable never runs).
The one-shot completion promise is likewise not modelled. -/
structure Task where
  id : Nat
  priority : Priority
  state : TaskState
  dependencies : List Nat
  cancelRequested : Bool
  executed : Bool
deriving DecidableEq, Repr

/-- A freshly constructed task: initial state `PENDING`, no dependencies. -/
def mkTask (id : Nat) (priority : Priority) : Task :=
  { id := id, priority := priority, state := .PENDING,
    dependencies := [], cancelRequested := false, executed := false }

/-! ## DependencyManager (dependency_manager.hpp / dependency_manager.cpp)

`dependents_` maps a dependency id to the set of ids that depend on it;
`dependency_count_` maps a dependent id to its remaining-dependency count.
The reader-writer lock is not modelled (each operation is atomic here). -/

structure DependencyManager where
  dependents : List (Nat × List Nat)
  dependency_count : List (Nat × Int)
deriving DecidableEq, Repr

namespace DependencyManager

/-- `unordered_set::insert` on a dependents set. -/
def setInsert (s : List Nat) (x : Nat) : List Nat :=
  if x ∈ s then s else s ++ [x]

/-- `DependencyManager::add_dependency` (dependency_manager.cpp:4). -/
def add_dependency (dm : DependencyManager) (dependent dependency : Nat) :
    DependencyManager :=
  { dependents :=
      insertA dm.dependents dependency
        (setInsert ((lookupA dm.dependents dependency).getD []) dependent),
    dependency_count :=
      insertA dm.dependency_count dependent
        (((lookupA dm.dependency_count dependent).getD 0) + 1) }

/-- The loop body of `DependencyManager::mark_completed` (dependency_manager.cpp:21):
for each dependent, decrement its count if an entry exists; a dependent whose
count reaches exactly zero is erased from the count map and collected. -/
def markLoop (cnt : List (Nat × Int)) : List Nat → List Nat × List (Nat × Int)
  | [] => ([], cnt)
  | d :: rest =>
    match lookupA cnt d with
    | none => markLoop cnt rest
    | some c =>
      if c - 1 = 0 then
        let r := markLoop (eraseA cnt d) rest
        (d :: r.1, r.2)
      else markLoop (insertA cnt d (c - 1)) rest

/-- `DependencyManager::mark_completed` (dependency_manager.cpp:14). -/
def mark_completed (dm : DependencyManager) (task_id : Nat) :
    List Nat × DependencyManager :=
  match lookupA dm.dependents task_id with
  | none => ([], dm)
  | some ds =>
    let r := markLoop dm.dependency_count ds
    (r.1, { dependents := eraseA dm.dependents task_id, dependency_count := r.2 })

/-- `DependencyManager::remove_task` (dependency_manager.cpp:83): purge the id
from both maps and scrub it out of every other dependents set. -/
def remove_task (dm : DependencyManager) (task_id : Nat) : DependencyManager :=
  { dependents :=
      (eraseA dm.dependents task_id).map (fun p => (p.1, p.2.filter (fun x => x ≠ task_id))),
    dependency_count := eraseA dm.dependency_count task_id }

/-- `DependencyManager::get_pending_task_count` (dependency_manager.cpp:98). -/
def get_pending_task_count (dm : DependencyManager) : Nat :=
  dm.dependency_count.length

/-- `DependencyManager::get_dependents` (dependency_manager.cpp:56). -/
def get_dependents (dm : DependencyManager) (task_id : Nat) : List Nat :=
  (lookupA dm.dependents task_id).getD []

/-- `DependencyManager::get_dependency_count` (dependency_manager.cpp:49). -/
def get_dependency_count (dm : DependencyManager) (task_id : Nat) : Int :=
  (lookupA dm.dependency_count task_id).getD 0

/-- `DependencyManager::clear` (dependency_manager.cpp:103). -/
def clear (_dm : DependencyManager) : DependencyManager :=
  { dependents := [], dependency_count := [] }

/-! ### Cycle detection (dependency_manager.cpp:109-155)

`dfs_cycle_detection` recurses over the dependents adjacency.  The C++
recursion terminates because `visited` only grows; here the recursion is
structured on an explicit `fuel` argument, and `creates_cycle` supplies fuel
that provably never runs out (see `dfsCycle_false_inv` below).  `rec_stack`
is threaded as a parameter: the C++ code erases `current` from it before
returning `false`, so a caller's `rec_stack` is unchanged across a `false`
return; `visited` persists and is threaded through sibling calls. -/

/-- `DependencyManager::dfs_cycle_detection`.  The loop over the dependents
of `current` is a fold that aborts further recursion once a cycle verdict is
reached (the C++ `return true` inside the for-loop); the recursion is
structural on the fuel so the function evaluates by kernel reduction. -/
def dfsCycle (dm : DependencyManager) (start : Nat) :
    Nat → Finset Nat → Finset Nat → Nat → Bool × Finset Nat
  | 0, _, visited, _ => (false, visited)
  | fuel + 1, rec, visited, current =>
    if current = start ∧ rec.Nonempty then (true, visited)
    else if current ∈ rec then (false, visited)
    else if current ∈ visited then (false, visited)
    else
      (get_dependents dm current).foldl
        (fun acc c =>
          if acc.1 then acc else dfsCycle dm start fuel (insert current rec) acc.2 c)
        (false, insert current visited)

/-- The `for (TaskId dependent : it->second)` loop of `dfs_cycle_detection`,
as a standalone function used to state the unfolding equations. -/
def dfsList (dm : DependencyManager) (start : Nat) (fuel : Nat)
    (rec visited : Finset Nat) (cs : List Nat) : Bool × Finset Nat :=
  cs.foldl
    (fun acc c => if acc.1 then acc else dfsCycle dm start fuel rec acc.2 c)
    (false, visited)

theorem dfsList_foldl_stop (dm : DependencyManager) (start fuel : Nat)
    (rec : Finset Nat) : ∀ (cs : List Nat) (acc : Bool × Finset Nat), acc.1 = true →
    cs.foldl
      (fun acc c => if acc.1 then acc else dfsCycle dm start fuel rec acc.2 c)
      acc = acc := by
  intro cs
  induction cs with
  | nil => intro acc _; rfl
  | cons c rest ih =>
    intro acc hacc
    rw [List.foldl_cons, if_pos hacc]
    exact ih acc hacc

theorem dfsCycle_zero (dm : DependencyManager) (start : Nat) (rec visited : Finset Nat)
    (current : Nat) : dfsCycle dm start 0 rec visited current = (false, visited) := rfl

theorem dfsCycle_succ (dm : DependencyManager) (start fuel : Nat)
    (rec visited : Finset Nat) (current : Nat) :
    dfsCycle dm start (fuel + 1) rec visited current =
      if current = start ∧ rec.Nonempty then (true, visited)
      else if current ∈ rec then (false, visited)
      else if current ∈ visited then (false, visited)
      else dfsList dm start fuel (insert current rec) (insert current visited)
        (get_dependents dm current) := rfl

theorem dfsList_nil (dm : DependencyManager) (start fuel : Nat)
    (rec visited : Finset Nat) : dfsList dm start fuel rec visited [] = (false, visited) := rfl

theorem dfsList_cons (dm : DependencyManager) (start fuel : Nat)
    (rec visited : Finset Nat) (c : Nat) (rest : List Nat) :
    dfsList dm start fuel rec visited (c :: rest) =
      if (dfsCycle dm start fuel rec visited c).1 then dfsCycle dm start fuel rec visited c
      else dfsList dm start fuel rec (dfsCycle dm start fuel rec visited c).2 rest := by
  unfold dfsList
  rw [List.foldl_cons]
  simp only [Bool.false_eq_true, if_false]
  by_cases hr : (dfsCycle dm start fuel rec visited c).1 = true
  · rw [if_pos hr]
    rw [dfsList_foldl_stop dm start fuel rec rest _ hr]
  · rw [if_neg hr]
    have : dfsCycle dm start fuel rec visited c =
        (false, (dfsCycle dm start fuel rec visited c).2) := by
      rw [Bool.not_eq_true] at hr
      rw [← hr]
    rw [this]

/-- All ids that occur in some dependents set (the only nodes the DFS can step
to); used to bound the fuel. -/
def mentioned (dm : DependencyManager) : Finset Nat :=
  (dm.dependents.flatMap Prod.snd).toFinset

/-- `DependencyManager::creates_cycle` (dependency_manager.cpp:109). -/
def creates_cycle (dm : DependencyManager) (start target : Nat) : Bool :=
  (dfsCycle dm start ((mentioned dm).card + 2) ∅ ∅ target).1

/-- `DependencyManager::has_circular_dependency` (dependency_manager.cpp:67). -/
def has_circular_dependency (dm : DependencyManager) (task_id : Nat)
    (new_dependencies : List Nat) : Bool :=
  new_dependencies.any (creates_cycle dm task_id)

/-- `Reaches dm a b`: there is a path of at least one edge from `a` to `b`
along the dependents adjacency (an edge goes from a dependency to each of its
registered dependents). -/
inductive Reaches (dm : DependencyManager) : Nat → Nat → Prop
  | single {a b : Nat} : b ∈ get_dependents dm a → Reaches dm a b
  | head {a b c : Nat} : b ∈ get_dependents dm a → Reaches dm b c → Reaches dm a c

/-- Soundness of the DFS: a `true` verdict exhibits a path back to `start`. -/
theorem dfs_sound (dm : DependencyManager) (start : Nat) :
    ∀ f : Nat,
      (∀ rec v c, (dfsCycle dm start f rec v c).1 = true →
        (c = start ∧ rec.Nonempty) ∨ Reaches dm c start) ∧
      (∀ rec v cs, (dfsList dm start f rec v cs).1 = true →
        ∃ c ∈ cs, (c = start ∧ rec.Nonempty) ∨ Reaches dm c start) := by
  intro f
  induction f with
  | zero =>
    constructor
    · intro rec v c h
      simp [dfsCycle_zero] at h
    · intro rec v cs h
      induction cs generalizing v with
      | nil => simp [dfsList_nil] at h
      | cons c rest ih =>
        rw [dfsList_cons] at h
        simp only [dfsCycle_zero, Bool.false_eq_true, if_false] at h
        obtain ⟨d, hd, hp⟩ := ih _ h
        exact ⟨d, List.mem_cons_of_mem _ hd, hp⟩
  | succ f ihf =>
    have hA : ∀ rec v c, (dfsCycle dm start (f + 1) rec v c).1 = true →
        (c = start ∧ rec.Nonempty) ∨ Reaches dm c start := by
      intro rec v c h
      rw [dfsCycle_succ] at h
      by_cases h₁ : c = start ∧ rec.Nonempty
      · exact Or.inl h₁
      · simp only [h₁, if_false] at h
        by_cases h₂ : c ∈ rec
        · simp [h₂] at h
        · simp only [h₂, if_false] at h
          by_cases h₃ : c ∈ v
          · simp [h₃] at h
          · simp only [h₃, if_false] at h
            obtain ⟨d, hd, hcase⟩ := ihf.2 _ _ _ h
            rcases hcase with ⟨rfl, _⟩ | hreach
            · exact Or.inr (Reaches.single hd)
            · exact Or.inr (Reaches.head hd hreach)
    refine ⟨hA, ?_⟩
    intro rec v cs h
    induction cs generalizing v with
    | nil => simp [dfsList_nil] at h
    | cons c rest ih =>
      rw [dfsList_cons] at h
      by_cases hr : (dfsCycle dm start (f + 1) rec v c).1 = true
      · exact ⟨c, by simp, hA _ _ _ hr⟩
      · simp only [Bool.not_eq_true] at hr
        simp only [hr, if_false] at h
        obtain ⟨d, hd, hc⟩ := ih _ h
        exact ⟨d, List.mem_cons_of_mem _ hd, hc⟩

/-- The invariant carried by the completeness argument: every fully explored
node (visited but no longer on the recursion stack) has all its dependents
visited, and none of them is `start`. -/
def Closed (dm : DependencyManager) (start : Nat) (rec v : Finset Nat) : Prop :=
  ∀ x ∈ v, x ∉ rec → ∀ y ∈ get_dependents dm x, y ≠ start ∧ y ∈ v

/-- Completeness invariant of the DFS: with enough fuel, a `false` verdict
leaves behind a closed visited set containing the explored node. -/
theorem dfs_false_inv (dm : DependencyManager) (start : Nat) (U : Finset Nat)
    (hU : ∀ a, ∀ y ∈ get_dependents dm a, y ∈ U) :
    ∀ f : Nat,
      (∀ rec v c, rec ⊆ v → Closed dm start rec v → c ∈ U →
        (U \ rec).card + 1 ≤ f →
        (dfsCycle dm start f rec v c).1 = false →
        Closed dm start rec (dfsCycle dm start f rec v c).2 ∧
          v ⊆ (dfsCycle dm start f rec v c).2 ∧
          c ∈ (dfsCycle dm start f rec v c).2) ∧
      (∀ rec v cs, rec ⊆ v → Closed dm start rec v → (∀ c ∈ cs, c ∈ U) →
        (U \ rec).card + 1 ≤ f → rec.Nonempty →
        (dfsList dm start f rec v cs).1 = false →
        Closed dm start rec (dfsList dm start f rec v cs).2 ∧
          v ⊆ (dfsList dm start f rec v cs).2 ∧
          ∀ c ∈ cs, c ∈ (dfsList dm start f rec v cs).2 ∧ c ≠ start) := by
  intro f
  induction f with
  | zero =>
    constructor
    · intro rec v c _ _ _ hfuel _
      omega
    · intro rec v cs _ _ _ hfuel _ _
      omega
  | succ f ihf =>
    have hA : ∀ rec v c, rec ⊆ v → Closed dm start rec v → c ∈ U →
        (U \ rec).card + 1 ≤ f + 1 →
        (dfsCycle dm start (f + 1) rec v c).1 = false →
        Closed dm start rec (dfsCycle dm start (f + 1) rec v c).2 ∧
          v ⊆ (dfsCycle dm start (f + 1) rec v c).2 ∧
          c ∈ (dfsCycle dm start (f + 1) rec v c).2 := by
      intro rec v c hrv hcl hcU hfuel hfalse
      rw [dfsCycle_succ] at hfalse ⊢
      by_cases h₁ : c = start ∧ rec.Nonempty
      · simp [h₁] at hfalse
      · simp only [h₁, if_false] at hfalse ⊢
        by_cases h₂ : c ∈ rec
        · simp only [h₂, if_true] at hfalse ⊢
          exact ⟨hcl, Finset.Subset.refl v, hrv h₂⟩
        · simp only [h₂, if_false] at hfalse ⊢
          by_cases h₃ : c ∈ v
          · simp only [h₃, if_true] at hfalse ⊢
            exact ⟨hcl, Finset.Subset.refl v, trivial⟩
          · simp only [h₃, if_false] at hfalse ⊢
            have hrv₁ : insert c rec ⊆ insert c v :=
              Finset.insert_subset_insert c hrv
            have hcl₁ : Closed dm start (insert c rec) (insert c v) := by
              intro x hx hxr y hy
              rcases Finset.mem_insert.1 hx with rfl | hx'
              · exact absurd (Finset.mem_insert_self x rec) hxr
              · have hxrec : x ∉ rec := fun hc => hxr (Finset.mem_insert_of_mem hc)
                obtain ⟨hy₁, hy₂⟩ := hcl x hx' hxrec y hy
                exact ⟨hy₁, Finset.mem_insert_of_mem hy₂⟩
            have hcard : (U \ insert c rec).card + 1 ≤ f := by
              have hmem : c ∈ U \ rec := Finset.mem_sdiff.2 ⟨hcU, h₂⟩
              have : U \ insert c rec = (U \ rec).erase c := by
                rw [Finset.sdiff_insert]
              rw [this, Finset.card_erase_of_mem hmem]
              have hpos : 0 < (U \ rec).card := Finset.card_pos.2 ⟨c, hmem⟩
              omega
            have hne : (insert c rec).Nonempty := Finset.insert_nonempty c rec
            obtain ⟨hcl', hsub', hmem'⟩ :=
              (ihf.2) (insert c rec) (insert c v) (get_dependents dm c) hrv₁ hcl₁
                (fun y hy => hU c y hy) hcard hne hfalse
            refine ⟨?_, ?_, ?_⟩
            · intro x hx hxr y hy
              by_cases hxc : x = c
              · subst hxc
                obtain ⟨hy₁, hy₂⟩ := hmem' y hy
                exact ⟨hy₂, hy₁⟩
              · have hxr₁ : x ∉ insert c rec := by
                  simp [Finset.mem_insert, hxc, hxr]
                exact hcl' x hx hxr₁ y hy
            · exact fun x hx => hsub' (Finset.mem_insert_of_mem hx)
            · exact hsub' (Finset.mem_insert_self c v)
    refine ⟨hA, ?_⟩
    intro rec v cs hrv hcl hcsU hfuel hne hfalse
    induction cs generalizing v with
    | nil =>
      rw [dfsList_nil] at hfalse ⊢
      exact ⟨hcl, Finset.Subset.refl v, by simp⟩
    | cons c rest ih =>
      rw [dfsList_cons] at hfalse ⊢
      by_cases hr : (dfsCycle dm start (f + 1) rec v c).1 = true
      · simp [hr] at hfalse
      · simp only [Bool.not_eq_true] at hr
        simp only [hr, if_false] at hfalse ⊢
        have hcne : c ≠ start := by
          intro hceq
          subst hceq
          rw [dfsCycle_succ] at hr
          simp [hne] at hr
        obtain ⟨hcl', hsub', hmem'⟩ :=
          hA rec v c hrv hcl (hcsU c (by simp)) hfuel hr
        have hrv' : rec ⊆ (dfsCycle dm start (f + 1) rec v c).2 :=
          Finset.Subset.trans hrv hsub'
        obtain ⟨hcl'', hsub'', hall''⟩ :=
          ih _ hrv' hcl' (fun d hd => hcsU d (List.mem_cons_of_mem _ hd)) hfalse
        refine ⟨hcl'', Finset.Subset.trans hsub' hsub'', ?_⟩
        intro d hd
        rcases List.mem_cons.1 hd with rfl | hd'
        · exact ⟨hsub'' hmem', hcne⟩
        · exact hall'' d hd'

/-- `creates_cycle dm start target` decides reachability of `start` from
`target` along at least one dependents edge. -/
theorem creates_cycle_iff (dm : DependencyManager) (start target : Nat) :
    creates_cycle dm start target = true ↔ Reaches dm target start := by
  constructor
  · intro h
    rcases (dfs_sound dm start _).1 _ _ _ h with ⟨_, hne⟩ | hreach
    · exact absurd hne (by simp)
    · exact hreach
  · intro hreach
    by_contra hfalse
    simp only [creates_cycle] at hfalse
    rw [Bool.not_eq_true] at hfalse
    set U : Finset Nat := insert target (mentioned dm) with hUdef
    have hU : ∀ a, ∀ y ∈ get_dependents dm a, y ∈ U := by
      intro a y hy
      simp only [get_dependents] at hy
      cases hl : lookupA dm.dependents a with
      | none => simp [hl] at hy
      | some ds =>
        simp only [hl, Option.getD_some] at hy
        have : (a, ds) ∈ dm.dependents := lookupA_mem hl
        refine Finset.mem_insert_of_mem ?_
        simp only [mentioned, List.mem_toFinset, List.mem_flatMap]
        exact ⟨(a, ds), this, hy⟩
    have hfuel : (U \ (∅ : Finset Nat)).card + 1 ≤ (mentioned dm).card + 2 := by
      rw [Finset.sdiff_empty, hUdef]
      have := Finset.card_insert_le target (mentioned dm)
      omega
    obtain ⟨hcl, _, hmem⟩ :=
      (dfs_false_inv dm start U hU _).1 (∅ : Finset Nat) (∅ : Finset Nat) target
        (by simp) (by intro x hx; simp at hx) (Finset.mem_insert_self _ _)
        hfuel hfalse
    set v' := (dfsCycle dm start ((mentioned dm).card + 2) ∅ ∅ target).2 with hv'
    have hkill : ∀ a b, Reaches dm a b → b = start → a ∈ v' → False := by
      intro a b hr
      induction hr with
      | @single a' b' hab =>
        intro hbs ha
        obtain ⟨hne, _⟩ := hcl a' ha (by simp) _ hab
        exact hne hbs
      | @head a' b' c' hab _ ih =>
        intro hcs ha
        obtain ⟨_, hbv⟩ := hcl a' ha (by simp) _ hab
        exact ih hcs hbv
    exact hkill target start hreach rfl hmem

/-- `has_circular_dependency` flags exactly the candidate dependencies from
which `task_id` is reachable by at least one dependents edge. -/
theorem has_circular_dependency_iff (dm : DependencyManager) (task_id : Nat)
    (deps : List Nat) :
    has_circular_dependency dm task_id deps = true ↔
      ∃ d ∈ deps, Reaches dm d task_id := by
  simp only [has_circular_dependency, List.any_eq_true, creates_cycle_iff]

/-! ### Lemmas about mark_completed's loop -/

theorem markLoop_sublist (cnt : List (Nat × Int)) (ds : List Nat) :
    (markLoop cnt ds).1.Sublist ds := by
  induction ds generalizing cnt with
  | nil => simp [markLoop]
  | cons d rest ih =>
    rw [markLoop]
    cases hl : lookupA cnt d with
    | none => exact (ih cnt).trans (List.sublist_cons_self d rest)
    | some c =>
      by_cases hc : c - 1 = 0
      · simpa [hc] using List.Sublist.cons₂ d (ih (eraseA cnt d))
      · simpa [hc] using (ih (insertA cnt d (c - 1))).trans (List.sublist_cons_self d rest)

theorem markLoop_lookup_not_mem (cnt : List (Nat × Int)) (ds : List Nat) (k : Nat)
    (hk : k ∉ ds) : lookupA (markLoop cnt ds).2 k = lookupA cnt k := by
  induction ds generalizing cnt with
  | nil => simp [markLoop]
  | cons d rest ih =>
    have hkd : k ≠ d := fun h => hk (h ▸ List.mem_cons_self d rest)
    have hkrest : k ∉ rest := fun h => hk (List.mem_cons_of_mem _ h)
    rw [markLoop]
    cases hl : lookupA cnt d with
    | none => exact ih cnt hkrest
    | some c =>
      by_cases hc : c - 1 = 0
      · simp only [hc, if_true]
        rw [ih (eraseA cnt d) hkrest]
        exact lookupA_eraseA_ne cnt d k (Ne.symm hkd)
      · simp only [hc, if_false]
        rw [ih (insertA cnt d (c - 1)) hkrest]
        exact lookupA_insertA_ne cnt d k (c - 1) (Ne.symm hkd)

theorem markLoop_lookup_mem (cnt : List (Nat × Int)) (ds : List Nat) (k : Nat)
    (hnd : ds.Nodup) (hk : k ∈ ds) :
    lookupA (markLoop cnt ds).2 k =
      match lookupA cnt k with
      | none => none
      | some c => if c = 1 then none else some (c - 1) := by
  induction ds generalizing cnt with
  | nil => simp at hk
  | cons d rest ih =>
    have hndr : rest.Nodup := hnd.of_cons
    have hdrest : d ∉ rest := (List.nodup_cons.1 hnd).1
    rw [markLoop]
    rcases List.mem_cons.1 hk with rfl | hkrest
    · cases hl : lookupA cnt k with
      | none =>
        rw [markLoop_lookup_not_mem _ _ _ hdrest, hl]
      | some c =>
        by_cases hc : c - 1 = 0
        · have hc1 : c = 1 := by omega
          simp only [hc, if_true]
          rw [markLoop_lookup_not_mem _ _ _ hdrest, lookupA_eraseA_self, hc1]
          simp
        · have hc1 : ¬ c = 1 := by omega
          simp only [hc, if_false]
          rw [markLoop_lookup_not_mem _ _ _ hdrest, lookupA_insertA_self]
          simp [hc1]
    · have hkd : k ≠ d := fun h => hdrest (h ▸ hkrest)
      cases hl : lookupA cnt d with
      | none => exact ih cnt hndr hkrest
      | some c =>
        by_cases hc : c - 1 = 0
        · simp only [hc, if_true]
          rw [ih (eraseA cnt d) hndr hkrest, lookupA_eraseA_ne cnt d k (Ne.symm hkd)]
        · simp only [hc, if_false]
          rw [ih (insertA cnt d (c - 1)) hndr hkrest,
            lookupA_insertA_ne cnt d k (c - 1) (Ne.symm hkd)]

theorem markLoop_ready_iff (cnt : List (Nat × Int)) (ds : List Nat) (r : Nat)
    (hnd : ds.Nodup) :
    r ∈ (markLoop cnt ds).1 ↔ r ∈ ds ∧ lookupA cnt r = some 1 := by
  induction ds generalizing cnt with
  | nil => simp [markLoop]
  | cons d rest ih =>
    have hndr : rest.Nodup := hnd.of_cons
    have hdrest : d ∉ rest := (List.nodup_cons.1 hnd).1
    rw [markLoop]
    cases hl : lookupA cnt d with
    | none =>
      rw [ih cnt hndr]
      constructor
      · rintro ⟨hr, hv⟩
        exact ⟨List.mem_cons_of_mem _ hr, hv⟩
      · rintro ⟨hr, hv⟩
        rcases List.mem_cons.1 hr with rfl | hr'
        · rw [hl] at hv; cases hv
        · exact ⟨hr', hv⟩
    | some c =>
      by_cases hc : c - 1 = 0
      · have hc1 : c = 1 := by omega
        simp only [hc, if_true, List.mem_cons]
        rw [ih (eraseA cnt d) hndr]
        constructor
        · rintro (rfl | ⟨hr, hv⟩)
          · exact ⟨Or.inl rfl, by rw [hl, hc1]⟩
          · have hrd : r ≠ d := by
              rintro rfl
              rw [lookupA_eraseA_self] at hv; cases hv
            rw [lookupA_eraseA_ne _ _ _ (Ne.symm hrd)] at hv
            exact ⟨Or.inr hr, hv⟩
        · rintro ⟨rfl | hr, hv⟩
          · exact Or.inl rfl
          · have hrd : r ≠ d := fun h => hdrest (h ▸ hr)
            exact Or.inr ⟨hr, by rw [lookupA_eraseA_ne _ _ _ (Ne.symm hrd)]; exact hv⟩
      · have hc1 : ¬ c = 1 := by omega
        simp only [hc, if_false]
        rw [ih (insertA cnt d (c - 1)) hndr]
        constructor
        · rintro ⟨hr, hv⟩
          have hrd : r ≠ d := fun h => hdrest (h ▸ hr)
          rw [lookupA_insertA_ne _ _ _ _ (Ne.symm hrd)] at hv
          exact ⟨List.mem_cons_of_mem _ hr, hv⟩
        · rintro ⟨hr, hv⟩
          rcases List.mem_cons.1 hr with rfl | hr'
          · rw [hl] at hv
            have : c = 1 := by injection hv
            exact absurd this hc1
          · have hrd : r ≠ d := fun h => hdrest (h ▸ hr')
            exact ⟨hr', by rw [lookupA_insertA_ne _ _ _ _ (Ne.symm hrd)]; exact hv⟩

theorem markLoop_keys_nodup (cnt : List (Nat × Int)) (ds : List Nat)
    (h : (cnt.map Prod.fst).Nodup) : ((markLoop cnt ds).2.map Prod.fst).Nodup := by
  induction ds generalizing cnt with
  | nil => simpa [markLoop]
  | cons d rest ih =>
    rw [markLoop]
    cases hl : lookupA cnt d with
    | none => exact ih cnt h
    | some c =>
      by_cases hc : c - 1 = 0
      · simp only [hc, if_true]
        exact ih (eraseA cnt d) (keys_eraseA_nodup d h)
      · simp only [hc, if_false]
        exact ih (insertA cnt d (c - 1)) (keys_insertA_nodup d (c - 1) h)

/-! ### Lemmas about remove_task, mark_completed, add_dependency -/

theorem lookupA_map_values {α β : Type} (m : List (Nat × α)) (f : α → β) (k : Nat) :
    lookupA (m.map (fun p => (p.1, f p.2))) k = (lookupA m k).map f := by
  induction m with
  | nil => rfl
  | cons p rest ih =>
    obtain ⟨k₀, v₀⟩ := p
    by_cases h₀ : k₀ = k <;> simp [lookupA, h₀, ih]

theorem remove_task_count (dm : DependencyManager) (t k : Nat) :
    lookupA (remove_task dm t).dependency_count k =
      if k = t then none else lookupA dm.dependency_count k := by
  by_cases h : k = t
  · simp [remove_task, h, lookupA_eraseA_self]
  · simp [remove_task, h, lookupA_eraseA_ne _ _ _ (fun he => h he.symm)]

theorem remove_task_dependents (dm : DependencyManager) (t a : Nat) :
    lookupA (remove_task dm t).dependents a =
      if a = t then none
      else (lookupA dm.dependents a).map (fun ds => ds.filter (fun x => x ≠ t)) := by
  by_cases h : a = t
  · subst h
    simp only [remove_task, if_true, eq_self_iff_true]
    rw [lookupA_map_values, lookupA_eraseA_self]
    rfl
  · simp only [remove_task, h, if_false]
    rw [lookupA_map_values, lookupA_eraseA_ne _ _ _ (fun he => h he.symm)]

theorem mark_completed_none (dm : DependencyManager) (t : Nat)
    (h : lookupA dm.dependents t = none) : mark_completed dm t = ([], dm) := by
  simp [mark_completed, h]

theorem setInsert_mem (s : List Nat) (x y : Nat) :
    y ∈ setInsert s x ↔ y ∈ s ∨ y = x := by
  by_cases h : x ∈ s
  · simp only [setInsert, h, if_true]
    constructor
    · exact Or.inl
    · rintro (hy | rfl)
      · exact hy
      · exact h
  · simp [setInsert, h]

theorem setInsert_nodup {s : List Nat} (x : Nat) (h : s.Nodup) :
    (setInsert s x).Nodup := by
  by_cases hx : x ∈ s
  · simpa [setInsert, hx]
  · simp only [setInsert, hx, if_false]
    refine h.append (List.nodup_singleton x) ?_
    intro a ha hb
    simp only [List.mem_singleton] at hb
    subst hb
    exact hx ha

end DependencyManager

/-! ## ThreadSafePriorityQueue (priority_queue.hpp / prioirity_queue.cpp)

The mutex and condition variable are not modelled: each operation is atomic.
`std::priority_queue` keeps a heap whose `top()` is a maximal element with
respect to the comparator; the model keeps the plain list of elements and
selects a maximal element on `pop`. -/

/-- `ThreadSafePriorityQueue::TaskComparator::operator()` (prioirity_queue.cpp:5):
`a` sorts below `b` (so `b` is popped first) when `a` has a smaller priority
value, or equal priorities and a larger id. -/
def TaskComparator (a b : Task) : Bool :=
  if a.priority ≠ b.priority then priNat a.priority < priNat b.priority
  else a.id > b.id

/-- Selects a maximal element of `a :: l` with respect to a strict order `lt`,
as `std::priority_queue::top()` does. -/
def chooseMax {α : Type} (lt : α → α → Bool) : α → List α → α
  | a, [] => a
  | a, x :: xs => chooseMax lt (if lt a x then x else a) xs

theorem chooseMax_mem {α : Type} (lt : α → α → Bool) (a : α) (l : List α) :
    chooseMax lt a l ∈ a :: l := by
  induction l generalizing a with
  | nil => simp [chooseMax]
  | cons x xs ih =>
    rw [chooseMax]
    by_cases h : lt a x = true
    · simp only [h, if_true]
      rcases List.mem_cons.1 (ih x) with h' | h'
      · simp [h']
      · simp [List.mem_cons_of_mem, h']
    · simp only [Bool.not_eq_true] at h
      simp only [h, Bool.false_eq_true, if_false]
      rcases List.mem_cons.1 (ih a) with h' | h'
      · simp [h']
      · simp [List.mem_cons_of_mem, h']

/-- If `lt` is asymmetric and negatively transitive, `chooseMax` picks an
element no other element strictly exceeds. -/
theorem chooseMax_not_lt {α : Type} (lt : α → α → Bool)
    (hasym : ∀ x y, lt x y = true → lt y x = false)
    (hneg : ∀ x y z, lt x y = false → lt y z = false → lt x z = false)
    (a : α) (l : List α) :
    ∀ b ∈ a :: l, lt (chooseMax lt a l) b = false := by
  induction l generalizing a with
  | nil =>
    intro b hb
    simp only [List.mem_singleton] at hb
    subst hb
    simp only [chooseMax]
    by_cases hx : lt b b = true
    · exact hasym b b hx
    · simpa using hx
  | cons x xs ih =>
    intro b hb
    rw [chooseMax]
    by_cases h : lt a x = true
    · simp only [h, if_true]
      rcases List.mem_cons.1 hb with rfl | hb'
      · have hxb : lt x b = false := hasym b x h
        have hres : lt (chooseMax lt x xs) x = false :=
          ih x x (List.mem_cons_self x xs)
        exact hneg _ _ _ hres hxb
      · exact ih x b hb'
    · simp only [Bool.not_eq_true] at h
      simp only [h, Bool.false_eq_true, if_false]
      rcases List.mem_cons.1 hb with rfl | hb'
      · exact ih b b (List.mem_cons_self b xs)
      · rcases List.mem_cons.1 hb' with rfl | hb''
        · have hres : lt (chooseMax lt a xs) a = false :=
            ih a a (List.mem_cons_self a xs)
          exact hneg _ _ _ hres h
        · exact ih a b (List.mem_cons_of_mem a hb'')

/-- The queue itself: the mutex-protected `std::priority_queue`'s contents. -/
structure ThreadSafePriorityQueue where
  elems : List Task
deriving DecidableEq, Repr

namespace ThreadSafePriorityQueue

/-- `push` (prioirity_queue.cpp:18). -/
def push (q : ThreadSafePriorityQueue) (t : Task) : ThreadSafePriorityQueue :=
  { elems := t :: q.elems }

/-- `top()` of the underlying `std::priority_queue`: a maximal element. -/
def top (q : ThreadSafePriorityQueue) : Option Task :=
  match q.elems with
  | [] => none
  | x :: xs => some (chooseMax TaskComparator x xs)

/-- `try_pop` (prioirity_queue.cpp:39): returns the top element, if any,
and removes it. -/
def try_pop (q : ThreadSafePriorityQueue) : Option Task × ThreadSafePriorityQueue :=
  match top q with
  | none => (none, q)
  | some m => (some m, { elems := q.elems.erase m })

/-- `pop` (prioirity_queue.cpp:26) blocks until the queue is non-empty and
then behaves like a successful `try_pop`; the model takes non-emptiness as a
precondition. -/
def pop (q : ThreadSafePriorityQueue) (_h : q.elems ≠ []) :
    Option Task × ThreadSafePriorityQueue :=
  try_pop q

/-- `try_pop_for` (prioirity_queue.cpp:51): waits up to the timeout.  The
timeout path returns `none` exactly when the queue is empty; on the success
path it behaves like `try_pop`.  Real time is not modelled. -/
def try_pop_for (q : ThreadSafePriorityQueue) (_timeout_ms : Nat) :
    Option Task × ThreadSafePriorityQueue :=
  try_pop q

/-- `size` (prioirity_queue.cpp:70). -/
def size (q : ThreadSafePriorityQueue) : Nat := q.elems.length

/-- `empty` (prioirity_queue.cpp:65). -/
def isEmpty (q : ThreadSafePriorityQueue) : Bool := q.elems.isEmpty

/-- `clear` (prioirity_queue.cpp:75). -/
def clear (_q : ThreadSafePriorityQueue) : ThreadSafePriorityQueue :=
  { elems := [] }

/-- `drain` (prioirity_queue.cpp:85). -/
def drain (q : ThreadSafePriorityQueue) : List Task × ThreadSafePriorityQueue :=
  (q.elems, { elems := [] })

end ThreadSafePriorityQueue

/-! ## TaskScheduler (task_scheduler.hpp / task_scheduler.cpp)

The task table `all_tasks_` maps ids to tasks.  The ready queue of the
scheduler holds shared references to tasks of the table; since the table
never drops an entry, the queue is modelled as the list of the referenced
task ids, resolved through the table (the priority of a task is immutable,
so the comparator computed through the table agrees with the one computed
on the shared pointers).  The thread pool performs no bookkeeping that the
claims mention, so it is not part of the state; its probes appear as the
`start_probe`/`finish_task` steps of the transition relation below. -/

structure SchedulerState where
  all_tasks : List (Nat × Task)
  dm : DependencyManager
  ready_queue : List Nat
  next_task_id : Nat
  shutdown_requested : Bool
deriving DecidableEq, Repr

/-- A fresh scheduler: `next_task_id_(1)`, `shutdown_requested_(false)`. -/
def initState : SchedulerState :=
  { all_tasks := [], dm := ⟨[], []⟩, ready_queue := [],
    next_task_id := 1, shutdown_requested := false }

/-- State of the task with the given id, as the table records it. -/
def stateOf (s : SchedulerState) (id : Nat) : Option TaskState :=
  (lookupA s.all_tasks id).map Task.state

/-- The dependencies of a task that are not yet completed (deduplicated);
ghost quantity used by the invariant relating it to `dependency_count_`. -/
def liveDeps (s : SchedulerState) (t : Task) : List Nat :=
  t.dependencies.dedup.filter (fun e => stateOf s e ≠ some .COMPLETED)

/-- The dependency-registration loop of `TaskScheduler::submit_task`
(task_scheduler.cpp:43-54): for each listed dependency, throw if it is not in
the task table, otherwise record it on the task and register the edge.  The
thrown exception leaves all mutations made so far in place. -/
def addDepsLoop (s : SchedulerState) (id : Nat) :
    List Nat → Except String Unit × SchedulerState
  | [] => (.ok (), s)
  | d :: rest =>
    if (lookupA s.all_tasks d).isNone then
      (.error "Dependency task does not exist", s)
    else
      match lookupA s.all_tasks id with
      | some t =>
        addDepsLoop
          { s with
              all_tasks := insertA s.all_tasks id { t with dependencies := t.dependencies ++ [d] },
              dm := s.dm.add_dependency id d } id rest
      | none => addDepsLoop { s with dm := s.dm.add_dependency id d } id rest

/-- `TaskScheduler::submit_task` (task_scheduler.cpp:16-66).  Failures are
`Except.error`; the returned state is the state after the call, including the
mutations a thrown exception leaves behind (the id counter was already
advanced by `generate_task_id`, and on an unknown-dependency throw the task
stays in the table with the edges registered so far).  When the dependency
list is empty the loop does nothing and the task is set `READY` and pushed. -/
def submit_task (s : SchedulerState) (priority : Priority) (deps : List Nat) :
    Except String Nat × SchedulerState :=
  if s.shutdown_requested then
    (.error "Cannot submit task: scheduler is shutting down", s)
  else
    let id := s.next_task_id
    let s₁ := { s with next_task_id := id + 1 }
    if deps ≠ [] ∧ s₁.dm.has_circular_dependency id deps then
      (.error "Circular dependency detected", s₁)
    else if deps = [] then
      (.ok id,
        { s₁ with
            all_tasks := insertA s₁.all_tasks id { mkTask id priority with state := .READY },
            ready_queue := s₁.ready_queue ++ [id] })
    else
      let s₂ := { s₁ with all_tasks := insertA s₁.all_tasks id (mkTask id priority) }
      match addDepsLoop s₂ id deps with
      | (.error e, s₃) => (.error e, s₃)
      | (.ok _, s₃) => (.ok id, s₃)

/-- `TaskScheduler::get_task_future` (task_scheduler.cpp:68); the completion
signal itself is not modelled, only the success/failure of the call. -/
def get_task_future (s : SchedulerState) (id : Nat) : Except String Unit :=
  match lookupA s.all_tasks id with
  | none => .error "Task not found"
  | some _ => .ok ()

/-- `TaskScheduler::cancel_task` (task_scheduler.cpp:79-108). -/
def cancel_task (s : SchedulerState) (id : Nat) : Bool × SchedulerState :=
  match lookupA s.all_tasks id with
  | none => (false, s)
  | some t =>
    if t.state = .PENDING ∨ t.state = .READY then
      (true,
        { s with
            all_tasks :=
              insertA s.all_tasks id { t with cancelRequested := true, state := .CANCELLED },
            dm := s.dm.remove_task id })
    else if t.state = .RUNNING then
      (true, { s with all_tasks := insertA s.all_tasks id { t with cancelRequested := true } })
    else (false, s)

/-- `TaskScheduler::get_task_status` (task_scheduler.cpp:110). -/
def get_task_status (s : SchedulerState) (id : Nat) : Except String TaskState :=
  match lookupA s.all_tasks id with
  | none => .error "Task not found"
  | some t => .ok t.state

/-- `TaskScheduler::pending_tasks` (task_scheduler.cpp:121): the size of the
pending-count map plus the ready-queue size. -/
def pending_tasks (s : SchedulerState) : Nat :=
  s.dm.get_pending_task_count + s.ready_queue.length

/-- `TaskScheduler::ready_tasks` (task_scheduler.cpp:125). -/
def ready_tasks (s : SchedulerState) : Nat :=
  s.ready_queue.length

/-- The per-task cancellation of `TaskScheduler::shutdown`
(task_scheduler.cpp:134-140). -/
def cancelIfNotStarted (t : Task) : Task :=
  if t.state = .PENDING ∨ t.state = .READY then
    { t with cancelRequested := true, state := .CANCELLED }
  else t

/-- `TaskScheduler::shutdown` (task_scheduler.cpp:129-150): set the flag,
cancel every Pending/Ready task, clear the ready queue and the dependency
manager.  The worker-pool join is not part of the modelled state. -/
def shutdown (s : SchedulerState) : SchedulerState :=
  { all_tasks := s.all_tasks.map (fun p => (p.1, cancelIfNotStarted p.2)),
    dm := s.dm.clear,
    ready_queue := [],
    next_task_id := s.next_task_id,
    shutdown_requested := true }

/-- The queue comparator resolved through the task table (the queue holds
shared pointers to table entries; priorities are immutable). -/
def idLt (s : SchedulerState) (a b : Nat) : Bool :=
  let pa := ((lookupA s.all_tasks a).map Task.priority).getD .NORMAL
  let pb := ((lookupA s.all_tasks b).map Task.priority).getD .NORMAL
  if pa ≠ pb then priNat pa < priNat pb else a > b

/-- Pop of the scheduler's ready queue (`try_pop_for` inside the probe,
task_scheduler.cpp:174): returns a maximal element and the remaining queue. -/
def popMaxQ (s : SchedulerState) : Option (Nat × List Nat) :=
  match s.ready_queue with
  | [] => none
  | x :: xs =>
    let m := chooseMax (idLt s) x xs
    some (m, (x :: xs).erase m)

/-- One scheduling probe (task_scheduler.cpp:170-177 and the front half of
`execute_task`, task_scheduler.cpp:180-188): pop one ready task if available;
drop it if the scheduler is shutting down; otherwise begin `Task::execute`.

Modelled from the spec: the body of `Task::execute` is absent from `src/`
(task.cpp holds thread-pool code); per spec §4.1, `execute()` first observes
`cancelRequested` — if set, the callable is not run and the task resolves
cancelled; otherwise the task starts running. -/
def start_probe (s : SchedulerState) : SchedulerState :=
  match popMaxQ s with
  | none => s
  | some (id, q') =>
    let s₀ := { s with ready_queue := q' }
    if s₀.shutdown_requested then s₀
    else
      match lookupA s₀.all_tasks id with
      | none => s₀
      | some t =>
        if t.cancelRequested then
          { s₀ with all_tasks := insertA s₀.all_tasks id { t with state := .CANCELLED } }
        else
          { s₀ with all_tasks := insertA s₀.all_tasks id { t with state := .RUNNING } }

/-- The newly-ready loop of `TaskScheduler::execute_task`
(task_scheduler.cpp:195-205): each id returned by `mark_completed` that is
present in the table is set `READY` and pushed onto the ready queue. -/
def pushReady : SchedulerState → List Nat → SchedulerState
  | s, [] => s
  | s, rid :: rest =>
    match lookupA s.all_tasks rid with
    | none => pushReady s rest
    | some rt =>
      pushReady
        { s with all_tasks := insertA s.all_tasks rid { rt with state := .READY },
                 ready_queue := s.ready_queue ++ [rid] } rest

/-- Completion of a running task (the back half of `Task::execute` — modelled
from the spec §4.1: the callable returns and the state becomes `COMPLETED` —
followed by `TaskScheduler::execute_task`'s completion branch,
task_scheduler.cpp:191-211: `mark_completed` and the newly-ready pushes).
The `executed` flag records that the callable ran. -/
def finish_task (s : SchedulerState) (id : Nat) : SchedulerState :=
  match lookupA s.all_tasks id with
  | none => s
  | some t =>
    if t.state = .RUNNING then
      let s₁ :=
        { s with all_tasks :=
            insertA s.all_tasks id { t with state := .COMPLETED, executed := true } }
      let r := s₁.dm.mark_completed id
      pushReady { s₁ with dm := r.2 } r.1
    else s

/-- One atomic step of the scheduler: a public call by some client thread, or
a worker-side probe/completion. -/
inductive Step : SchedulerState → SchedulerState → Prop
  | submit (s : SchedulerState) (p : Priority) (deps : List Nat) :
      Step s (submit_task s p deps).2
  | cancel (s : SchedulerState) (id : Nat) : Step s (cancel_task s id).2
  | probe (s : SchedulerState) : Step s (start_probe s)
  | finish (s : SchedulerState) (id : Nat) : Step s (finish_task s id)
  | shut (s : SchedulerState) : Step s (shutdown s)

/-- Zero or more scheduler steps. -/
def StepStar : SchedulerState → SchedulerState → Prop :=
  Relation.ReflTransGen Step

/-- States reachable from a fresh scheduler. -/
def Reachable (s : SchedulerState) : Prop :=
  StepStar initState s

/-! ## The global invariant -/

/-- The invariant every reachable scheduler state satisfies.  It couples the
task table, the dependency manager and the ready queue. -/
structure Inv (s : SchedulerState) : Prop where
  keys_nd : (s.all_tasks.map Prod.fst).Nodup
  id_coh : ∀ p ∈ s.all_tasks, p.2.id = p.1
  fresh : ∀ p ∈ s.all_tasks, p.1 < s.next_task_id
  deps_exist : ∀ p ∈ s.all_tasks, ∀ d ∈ p.2.dependencies,
    (lookupA s.all_tasks d).isSome
  cnt_keys_nd : (s.dm.dependency_count.map Prod.fst).Nodup
  dep_keys_nd : (s.dm.dependents.map Prod.fst).Nodup
  dep_sets_nd : ∀ p ∈ s.dm.dependents, p.2.Nodup
  cnt_pending : ∀ k c, lookupA s.dm.dependency_count k = some c →
    ∃ t, lookupA s.all_tasks k = some t ∧ t.state = .PENDING
  edge_coh : ∀ a ds, lookupA s.dm.dependents a = some ds → ∀ b ∈ ds,
    ∃ t, lookupA s.all_tasks b = some t ∧ a ∈ t.dependencies
  cnt_ge : ∀ k c t, lookupA s.dm.dependency_count k = some c →
    lookupA s.all_tasks k = some t → ((liveDeps s t).length : Int) ≤ c
  ready_closed : ∀ k t, lookupA s.all_tasks k = some t →
    t.state = .READY ∨ t.state = .RUNNING ∨ t.state = .COMPLETED →
    ∀ d ∈ t.dependencies, stateOf s d = some .COMPLETED
  q_sub : ∀ i ∈ s.ready_queue, ∃ t, lookupA s.all_tasks i = some t ∧
    (t.state = .READY ∨ t.state = .CANCELLED)
  q_nd : s.ready_queue.Nodup
  exec_comp : ∀ k t, lookupA s.all_tasks k = some t → t.executed = true →
    t.state = .COMPLETED
  canc_flag : ∀ k t, lookupA s.all_tasks k = some t → t.state = .CANCELLED →
    t.cancelRequested = true
  flag_state : ∀ k t, lookupA s.all_tasks k = some t → t.cancelRequested = true →
    t.state ≠ .PENDING ∧ t.state ≠ .READY

theorem inv_init : Inv initState := by
  constructor <;> simp [initState, lookupA]

/-! ### Helper lemmas for the preservation proofs -/

theorem lookupA_insertA {α : Type} (m : List (Nat × α)) (k : Nat) (v : α) (k' : Nat) :
    lookupA (insertA m k v) k' = if k = k' then some v else lookupA m k' := by
  by_cases h : k = k'
  · subst h
    simp [lookupA_insertA_self]
  · simp [h, lookupA_insertA_ne m k k' v h]

theorem keys_map_values {α β : Type} (m : List (Nat × α)) (f : α → β) :
    (m.map (fun p => (p.1, f p.2))).map Prod.fst = m.map Prod.fst := by
  induction m with
  | nil => rfl
  | cons p rest ih => simp [ih]

theorem filter_length_mono {α : Type} (l : List α) (p q : α → Bool)
    (h : ∀ e ∈ l, p e = true → q e = true) :
    (l.filter p).length ≤ (l.filter q).length := by
  induction l with
  | nil => simp
  | cons x xs ih =>
    have hx := h x (List.mem_cons_self x xs)
    have ihx := ih (fun e he => h e (List.mem_cons_of_mem _ he))
    by_cases hp : p x = true
    · simp [List.filter_cons, hp, hx hp]
      omega
    · simp only [Bool.not_eq_true] at hp
      simp only [List.filter_cons, hp]
      by_cases hq : q x = true <;> simp [hq] <;> omega

theorem lookupA_none_next (s : SchedulerState) (hinv : Inv s) :
    lookupA s.all_tasks s.next_task_id = none := by
  apply lookupA_eq_none_of_not_mem_keys
  intro hmem
  obtain ⟨p, hp, hfst⟩ := List.mem_map.1 hmem
  have := hinv.fresh p hp
  omega

theorem lookup_lt_next (s : SchedulerState) (hinv : Inv s) {k : Nat} {t : Task}
    (h : lookupA s.all_tasks k = some t) : k < s.next_task_id :=
  hinv.fresh (k, t) (lookupA_mem h)

theorem liveDeps_congr {s s' : SchedulerState} (t : Task)
    (h : ∀ e ∈ t.dependencies, stateOf s' e = stateOf s e) :
    liveDeps s' t = liveDeps s t := by
  unfold liveDeps
  apply List.filter_congr
  intro e he
  rw [h e (List.mem_dedup.1 he)]

theorem liveDeps_congr_pred {s s' : SchedulerState} (t : Task)
    (h : ∀ e ∈ t.dependencies,
      (stateOf s' e = some .COMPLETED) ↔ (stateOf s e = some .COMPLETED)) :
    liveDeps s' t = liveDeps s t := by
  unfold liveDeps
  apply List.filter_congr
  intro e he
  have := h e (List.mem_dedup.1 he)
  simp only [decide_eq_decide]
  exact not_congr this

theorem liveDeps_length_mono {s s' : SchedulerState} (t : Task)
    (h : ∀ e ∈ t.dependencies, stateOf s e = some .COMPLETED →
      stateOf s' e = some .COMPLETED) :
    (liveDeps s' t).length ≤ (liveDeps s t).length := by
  unfold liveDeps
  apply filter_length_mono
  intro e he hp
  simp only [decide_eq_true_eq] at hp ⊢
  intro hc
  exact hp (h e (List.mem_dedup.1 he) hc)

theorem liveDeps_nodup (s : SchedulerState) (t : Task) : (liveDeps s t).Nodup :=
  (List.nodup_dedup t.dependencies).filter _

/-- Completing one dependency `d` removes exactly `d` from the live set,
provided all other dependency states are unchanged. -/
theorem liveDeps_after_complete {s s' : SchedulerState} (t : Task) (d : Nat)
    (hne : ∀ e ∈ t.dependencies, e ≠ d → stateOf s' e = stateOf s e)
    (hd : stateOf s' d = some .COMPLETED) :
    liveDeps s' t = (liveDeps s t).filter (fun e => e ≠ d) := by
  unfold liveDeps
  rw [List.filter_filter]
  apply List.filter_congr
  intro e he
  have hmem := List.mem_dedup.1 he
  by_cases hed : e = d
  · subst hed
    simp [hd]
  · rw [hne e hmem hed]
    simp [hed, Bool.and_comm]

theorem liveDeps_length_lt {s s' : SchedulerState} (t : Task) (d : Nat)
    (hne : ∀ e ∈ t.dependencies, e ≠ d → stateOf s' e = stateOf s e)
    (hd : stateOf s' d = some .COMPLETED)
    (hdm : d ∈ liveDeps s t) :
    (liveDeps s' t).length + 1 = (liveDeps s t).length := by
  rw [liveDeps_after_complete t d hne hd]
  have hnd : (liveDeps s t).Nodup := liveDeps_nodup s t
  have : (liveDeps s t).filter (fun e => e ≠ d) = (liveDeps s t).erase d := by
    rw [hnd.erase_eq_filter]
    apply List.filter_congr
    intro e _
    by_cases h : e = d <;> simp [h]
  rw [this, List.length_erase_of_mem hdm]
  have : 0 < (liveDeps s t).length := List.length_pos.2 (List.ne_nil_of_mem hdm)
  omega

/-! ### Preservation: cancel_task -/

theorem inv_cancel_pr (s : SchedulerState) (id : Nat) (t : Task) (hinv : Inv s)
    (hl : lookupA s.all_tasks id = some t)
    (hpr : t.state = .PENDING ∨ t.state = .READY) :
    Inv { s with
            all_tasks :=
              insertA s.all_tasks id { t with cancelRequested := true, state := .CANCELLED },
            dm := s.dm.remove_task id } := by
  have hid : t.id = id := hinv.id_coh (id, t) (lookupA_mem hl)
  have hlt : id < s.next_task_id := lookup_lt_next s hinv hl
  have hsid : stateOf s id = some t.state := by simp [stateOf, hl]
  have htC : t.state ≠ .COMPLETED := by rcases hpr with h | h <;> simp [h]
  refine ⟨?_, ?_, ?_, ?_, ?_, ?_, ?_, ?_, ?_, ?_, ?_, ?_, ?_, ?_, ?_, ?_⟩
  · exact keys_insertA_nodup id _ hinv.keys_nd
  · intro p hp
    rcases mem_insertA hp with h | h
    · exact hinv.id_coh p h
    · subst h
      exact hid
  · intro p hp
    rcases mem_insertA hp with h | h
    · exact hinv.fresh p h
    · subst h
      exact hlt
  · intro p hp d hd
    simp only
    rw [lookupA_insertA]
    by_cases hde : id = d
    · simp [hde]
    · simp only [hde, if_false]
      rcases mem_insertA hp with h | h
      · exact hinv.deps_exist p h d hd
      · subst h
        exact hinv.deps_exist (id, t) (lookupA_mem hl) d hd
  · exact keys_eraseA_nodup id hinv.cnt_keys_nd
  · show (((eraseA s.dm.dependents id).map _).map Prod.fst).Nodup
    rw [keys_map_values]
    exact keys_eraseA_nodup id hinv.dep_keys_nd
  · intro p hp
    obtain ⟨q, hq, rfl⟩ := List.mem_map.1 hp
    exact (hinv.dep_sets_nd q (mem_eraseA hq)).filter _
  · intro k c hk
    rw [DependencyManager.remove_task_count] at hk
    by_cases hki : k = id
    · simp [hki] at hk
    · simp only [hki, if_false] at hk
      obtain ⟨t₀, hlt₀, hp₀⟩ := hinv.cnt_pending k c hk
      refine ⟨t₀, ?_, hp₀⟩
      have hik : id ≠ k := fun h => hki h.symm
      simp only
      rw [lookupA_insertA]
      simp [hik, hlt₀]
  · intro a ds hds b hb
    rw [DependencyManager.remove_task_dependents] at hds
    by_cases hai : a = id
    · simp [hai] at hds
    · simp only [hai, if_false] at hds
      cases hla : lookupA s.dm.dependents a with
      | none => rw [hla] at hds; cases hds
      | some ds₀ =>
        rw [hla] at hds
        have hds2 : ds₀.filter (fun x => x ≠ id) = ds := Option.some_inj.1 hds
        subst hds2
        have hb' := List.mem_filter.1 hb
        have hbne : b ≠ id := by simpa using hb'.2
        obtain ⟨tb, hltb, hmem⟩ := hinv.edge_coh a ds₀ hla b hb'.1
        refine ⟨tb, ?_, hmem⟩
        have hib : id ≠ b := fun h => hbne h.symm
        simp only
        rw [lookupA_insertA]
        simp [hib, hltb]
  · intro k c tk hk hlk
    rw [DependencyManager.remove_task_count] at hk
    by_cases hki : k = id
    · simp [hki] at hk
    · simp only [hki, if_false] at hk
      have hik : id ≠ k := fun h => hki h.symm
      simp only at hlk
      rw [lookupA_insertA] at hlk
      simp only [hik, if_false] at hlk
      have heq : liveDeps
          { s with
              all_tasks :=
                insertA s.all_tasks id { t with cancelRequested := true, state := .CANCELLED },
              dm := s.dm.remove_task id } tk = liveDeps s tk := by
        apply liveDeps_congr_pred
        intro e _
        simp only [stateOf]
        rw [lookupA_insertA]
        by_cases hde : id = e
        · subst hde
          rw [hl]
          simp only [Option.map_some]
          constructor
          · intro h; cases h
          · intro h
            exact absurd (Option.some_inj.1 h) htC
        · simp [hde]
      rw [heq]
      exact hinv.cnt_ge k c tk hk hlk
  · intro k tk hlk hst d hd
    simp only at hlk
    rw [lookupA_insertA] at hlk
    by_cases hki : id = k
    · simp only [hki, if_true, Option.some_inj] at hlk
      subst hlk
      rcases hst with h | h | h <;> cases h
    · simp only [hki, if_false] at hlk
      have hdc := hinv.ready_closed k tk hlk hst d hd
      have hdne : id ≠ d := by
        intro h
        subst h
        rw [hsid] at hdc
        exact htC (Option.some_inj.1 hdc)
      simp only [stateOf]
      rw [lookupA_insertA]
      simp only [hdne, if_false]
      exact hdc
  · intro i hi
    obtain ⟨ti, hlti, hRC⟩ := hinv.q_sub i hi
    by_cases hii : id = i
    · subst hii
      rw [hl] at hlti
      refine ⟨{ t with cancelRequested := true, state := .CANCELLED }, ?_, Or.inr rfl⟩
      simp only
      rw [lookupA_insertA]
      simp
    · refine ⟨ti, ?_, hRC⟩
      simp only
      rw [lookupA_insertA]
      simp [hii, hlti]
  · exact hinv.q_nd
  · intro k tk hlk hex
    simp only at hlk
    rw [lookupA_insertA] at hlk
    by_cases hki : id = k
    · simp only [hki, if_true, Option.some_inj] at hlk
      subst hlk
      simp only at hex
      have := hinv.exec_comp id t hl hex
      exact absurd this htC
    · simp only [hki, if_false] at hlk
      exact hinv.exec_comp k tk hlk hex
  · intro k tk hlk hst
    simp only at hlk
    rw [lookupA_insertA] at hlk
    by_cases hki : id = k
    · simp only [hki, if_true, Option.some_inj] at hlk
      subst hlk
      rfl
    · simp only [hki, if_false] at hlk
      exact hinv.canc_flag k tk hlk hst
  · intro k tk hlk hfl
    simp only at hlk
    rw [lookupA_insertA] at hlk
    by_cases hki : id = k
    · simp only [hki, if_true, Option.some_inj] at hlk
      subst hlk
      exact ⟨by simp, by simp⟩
    · simp only [hki, if_false] at hlk
      exact hinv.flag_state k tk hlk hfl

/-- `cancel_task` on an unknown id: returns false, state untouched. -/
theorem cancel_task_none (s : SchedulerState) (id : Nat)
    (h : lookupA s.all_tasks id = none) : cancel_task s id = (false, s) := by
  simp [cancel_task, h]

/-- `cancel_task` on a Pending/Ready task. -/
theorem cancel_task_pr (s : SchedulerState) (id : Nat) (t : Task)
    (hl : lookupA s.all_tasks id = some t)
    (hpr : t.state = .PENDING ∨ t.state = .READY) :
    cancel_task s id =
      (true,
        { s with
            all_tasks :=
              insertA s.all_tasks id { t with cancelRequested := true, state := .CANCELLED },
            dm := s.dm.remove_task id }) := by
  simp [cancel_task, hl, hpr]

/-- `cancel_task` on a Running task: cooperative flag only. -/
theorem cancel_task_running (s : SchedulerState) (id : Nat) (t : Task)
    (hl : lookupA s.all_tasks id = some t) (hrun : t.state = .RUNNING) :
    cancel_task s id =
      (true, { s with all_tasks := insertA s.all_tasks id { t with cancelRequested := true } }) := by
  simp [cancel_task, hl, hrun]

/-- `cancel_task` on a Completed/Cancelled task: returns false, unchanged. -/
theorem cancel_task_term (s : SchedulerState) (id : Nat) (t : Task)
    (hl : lookupA s.all_tasks id = some t)
    (hterm : t.state = .COMPLETED ∨ t.state = .CANCELLED) :
    cancel_task s id = (false, s) := by
  rcases hterm with h | h <;> simp [cancel_task, hl, h]

theorem inv_cancel_running (s : SchedulerState) (id : Nat) (t : Task) (hinv : Inv s)
    (hl : lookupA s.all_tasks id = some t) (hrun : t.state = .RUNNING) :
    Inv { s with all_tasks := insertA s.all_tasks id { t with cancelRequested := true } } := by
  have hid : t.id = id := hinv.id_coh (id, t) (lookupA_mem hl)
  have hlt : id < s.next_task_id := lookup_lt_next s hinv hl
  have hstid : stateOf s id = some t.state := by simp [stateOf, hl]
  refine ⟨?_, ?_, ?_, ?_, hinv.cnt_keys_nd, hinv.dep_keys_nd, hinv.dep_sets_nd,
    ?_, ?_, ?_, ?_, ?_, hinv.q_nd, ?_, ?_, ?_⟩
  · exact keys_insertA_nodup id _ hinv.keys_nd
  · intro p hp
    rcases mem_insertA hp with h | h
    · exact hinv.id_coh p h
    · subst h; exact hid
  · intro p hp
    rcases mem_insertA hp with h | h
    · exact hinv.fresh p h
    · subst h; exact hlt
  · intro p hp d hd
    simp only
    rw [lookupA_insertA]
    by_cases hde : id = d
    · simp [hde]
    · simp only [hde, if_false]
      rcases mem_insertA hp with h | h
      · exact hinv.deps_exist p h d hd
      · subst h
        exact hinv.deps_exist (id, t) (lookupA_mem hl) d hd
  · intro k c hk
    obtain ⟨t₀, hlt₀, hp₀⟩ := hinv.cnt_pending k c hk
    have hki : id ≠ k := by
      rintro rfl
      rw [hl] at hlt₀
      cases hlt₀
      rw [hrun] at hp₀
      cases hp₀
    refine ⟨t₀, ?_, hp₀⟩
    simp only
    rw [lookupA_insertA]
    simp [hki, hlt₀]
  · intro a ds hds b hb
    obtain ⟨tb, hltb, hmem⟩ := hinv.edge_coh a ds hds b hb
    simp only
    rw [lookupA_insertA]
    by_cases hbi : id = b
    · subst hbi
      rw [hl] at hltb
      cases hltb
      exact ⟨{ t with cancelRequested := true }, by simp, hmem⟩
    · simp only [hbi, if_false]
      exact ⟨tb, hltb, hmem⟩
  · intro k c tk hk hlk
    simp only at hlk
    rw [lookupA_insertA] at hlk
    have heq : ∀ tx : Task, liveDeps
        { s with all_tasks := insertA s.all_tasks id { t with cancelRequested := true } } tx =
        liveDeps s tx := by
      intro tx
      apply liveDeps_congr
      intro e _
      simp only [stateOf]
      rw [lookupA_insertA]
      by_cases hde : id = e
      · subst hde
        simp [hl]
      · simp [hde]
    by_cases hki : id = k
    · subst hki
      simp only [if_true, Option.some_inj] at hlk
      subst hlk
      rw [heq]
      have : liveDeps s { t with cancelRequested := true } = liveDeps s t := rfl
      rw [this]
      exact hinv.cnt_ge id c t hk hl
    · simp only [hki, if_false] at hlk
      rw [heq]
      exact hinv.cnt_ge k c tk hk hlk
  · intro k tk hlk hst d hd
    simp only at hlk
    rw [lookupA_insertA] at hlk
    have hgoal : ∀ e, stateOf
        { s with all_tasks := insertA s.all_tasks id { t with cancelRequested := true } } e =
        stateOf s e := by
      intro e
      simp only [stateOf]
      rw [lookupA_insertA]
      by_cases hde : id = e
      · subst hde; simp [hl]
      · simp [hde]
    rw [hgoal]
    by_cases hki : id = k
    · subst hki
      simp only [if_true, Option.some_inj] at hlk
      subst hlk
      exact hinv.ready_closed id t hl (by simpa using hst) d hd
    · simp only [hki, if_false] at hlk
      exact hinv.ready_closed k tk hlk hst d hd
  · intro i hi
    obtain ⟨ti, hlti, hRC⟩ := hinv.q_sub i hi
    have hii : id ≠ i := by
      rintro rfl
      rw [hl] at hlti
      cases hlti
      rcases hRC with h | h <;> rw [hrun] at h <;> cases h
    refine ⟨ti, ?_, hRC⟩
    simp only
    rw [lookupA_insertA]
    simp [hii, hlti]
  · intro k tk hlk hex
    simp only at hlk
    rw [lookupA_insertA] at hlk
    by_cases hki : id = k
    · subst hki
      simp only [if_true, Option.some_inj] at hlk
      subst hlk
      simp only at hex
      have := hinv.exec_comp id t hl hex
      rw [hrun] at this
      cases this
    · simp only [hki, if_false] at hlk
      exact hinv.exec_comp k tk hlk hex
  · intro k tk hlk hst
    simp only at hlk
    rw [lookupA_insertA] at hlk
    by_cases hki : id = k
    · subst hki
      simp only [if_true, Option.some_inj] at hlk
      subst hlk
      simp only at hst
      rw [hrun] at hst
    · simp only [hki, if_false] at hlk
      exact hinv.canc_flag k tk hlk hst
  · intro k tk hlk hfl
    simp only at hlk
    rw [lookupA_insertA] at hlk
    by_cases hki : id = k
    · subst hki
      simp only [if_true, Option.some_inj] at hlk
      subst hlk
      simp only [hrun]
      exact ⟨by simp, by simp⟩
    · simp only [hki, if_false] at hlk
      exact hinv.flag_state k tk hlk hfl

/-- `cancel_task` preserves the invariant. -/
theorem inv_cancel (s : SchedulerState) (id : Nat) (hinv : Inv s) :
    Inv (cancel_task s id).2 := by
  cases hl : lookupA s.all_tasks id with
  | none => rw [cancel_task_none s id hl]; exact hinv
  | some t =>
    by_cases hpr : t.state = .PENDING ∨ t.state = .READY
    · rw [cancel_task_pr s id t hl hpr]
      exact inv_cancel_pr s id t hinv hl hpr
    · by_cases hrun : t.state = .RUNNING
      · rw [cancel_task_running s id t hl hrun]
        exact inv_cancel_running s id t hinv hl hrun
      · have hterm : t.state = .COMPLETED ∨ t.state = .CANCELLED := by
          cases hts : t.state <;> simp [hts] at hpr hrun ⊢
        rw [cancel_task_term s id t hl hterm]
        exact hinv

/-! ### Preservation: shutdown -/

theorem cancelIfNotStarted_id (t : Task) : (cancelIfNotStarted t).id = t.id := by
  unfold cancelIfNotStarted
  split <;> rfl

theorem cancelIfNotStarted_deps (t : Task) :
    (cancelIfNotStarted t).dependencies = t.dependencies := by
  unfold cancelIfNotStarted
  split <;> rfl

theorem cancelIfNotStarted_completed (t : Task) (h : t.state = .COMPLETED) :
    cancelIfNotStarted t = t := by
  simp [cancelIfNotStarted, h]

theorem inv_shutdown (s : SchedulerState) (hinv : Inv s) : Inv (shutdown s) := by
  have hlook : ∀ k, lookupA (shutdown s).all_tasks k =
      (lookupA s.all_tasks k).map cancelIfNotStarted := by
    intro k
    simp only [shutdown]
    exact DependencyManager.lookupA_map_values s.all_tasks cancelIfNotStarted k
  refine ⟨?_, ?_, ?_, ?_, ?_, ?_, ?_, ?_, ?_, ?_, ?_, ?_, ?_, ?_, ?_, ?_⟩
  · simp only [shutdown]
    rw [keys_map_values]
    exact hinv.keys_nd
  · intro p hp
    simp only [shutdown] at hp
    obtain ⟨q, hq, rfl⟩ := List.mem_map.1 hp
    simp only [cancelIfNotStarted_id]
    exact hinv.id_coh q hq
  · intro p hp
    simp only [shutdown] at hp
    obtain ⟨q, hq, rfl⟩ := List.mem_map.1 hp
    exact hinv.fresh q hq
  · intro p hp d hd
    simp only [shutdown] at hp
    obtain ⟨q, hq, rfl⟩ := List.mem_map.1 hp
    simp only [cancelIfNotStarted_deps] at hd
    rw [hlook]
    have := hinv.deps_exist q hq d hd
    cases hq' : lookupA s.all_tasks d
    · rw [hq'] at this; cases this
    · simp [hq']
  · simp [shutdown, DependencyManager.clear]
  · simp [shutdown, DependencyManager.clear]
  · intro p hp
    simp [shutdown, DependencyManager.clear] at hp
  · intro k c hk
    simp [shutdown, DependencyManager.clear, lookupA] at hk
  · intro a ds hds
    simp [shutdown, DependencyManager.clear, lookupA] at hds
  · intro k c tk hk
    simp [shutdown, DependencyManager.clear, lookupA] at hk
  · intro k tk hlk hst d hd
    rw [hlook] at hlk
    cases hq : lookupA s.all_tasks k with
    | none => rw [hq] at hlk; cases hlk
    | some t₀ =>
      rw [hq] at hlk
      have ht₀ : tk = cancelIfNotStarted t₀ := (Option.some_inj.1 hlk).symm
      by_cases hpr : t₀.state = .PENDING ∨ t₀.state = .READY
      · rw [ht₀] at hst
        simp only [cancelIfNotStarted, hpr, if_true] at hst
        rcases hst with h | h | h <;> cases h
      · have htk : tk = t₀ := by
          rw [ht₀]; simp [cancelIfNotStarted, hpr]
        subst htk
        have hdc := hinv.ready_closed k tk hq hst d hd
        simp only [stateOf] at hdc ⊢
        rw [hlook]
        cases hq' : lookupA s.all_tasks d with
        | none => rw [hq'] at hdc; cases hdc
        | some td =>
          rw [hq'] at hdc
          have : td.state = .COMPLETED := by simpa using hdc
          simp [cancelIfNotStarted_completed td this, this]
  · intro i hi
    simp [shutdown] at hi
  · simp [shutdown]
  · intro k tk hlk hex
    rw [hlook] at hlk
    cases hq : lookupA s.all_tasks k with
    | none => rw [hq] at hlk; cases hlk
    | some t₀ =>
      rw [hq] at hlk
      have ht₀ : tk = cancelIfNotStarted t₀ := (Option.some_inj.1 hlk).symm
      by_cases hpr : t₀.state = .PENDING ∨ t₀.state = .READY
      · rw [ht₀] at hex ⊢
        simp only [cancelIfNotStarted, hpr, if_true] at hex ⊢
        have := hinv.exec_comp k t₀ hq hex
        rcases hpr with h | h <;> rw [h] at this <;> cases this
      · have htk : tk = t₀ := by rw [ht₀]; simp [cancelIfNotStarted, hpr]
        subst htk
        exact hinv.exec_comp k tk hq hex
  · intro k tk hlk hst
    rw [hlook] at hlk
    cases hq : lookupA s.all_tasks k with
    | none => rw [hq] at hlk; cases hlk
    | some t₀ =>
      rw [hq] at hlk
      have ht₀ : tk = cancelIfNotStarted t₀ := (Option.some_inj.1 hlk).symm
      by_cases hpr : t₀.state = .PENDING ∨ t₀.state = .READY
      · rw [ht₀]
        simp [cancelIfNotStarted, hpr]
      · have htk : tk = t₀ := by rw [ht₀]; simp [cancelIfNotStarted, hpr]
        subst htk
        exact hinv.canc_flag k tk hq hst
  · intro k tk hlk hfl
    rw [hlook] at hlk
    cases hq : lookupA s.all_tasks k with
    | none => rw [hq] at hlk; cases hlk
    | some t₀ =>
      rw [hq] at hlk
      have ht₀ : tk = cancelIfNotStarted t₀ := (Option.some_inj.1 hlk).symm
      by_cases hpr : t₀.state = .PENDING ∨ t₀.state = .READY
      · rw [ht₀]
        simp [cancelIfNotStarted, hpr]
      · have htk : tk = t₀ := by rw [ht₀]; simp [cancelIfNotStarted, hpr]
        subst htk
        exact hinv.flag_state k tk hq hfl

/-! ### Preservation: start_probe -/

theorem popMaxQ_spec {s : SchedulerState} {id : Nat} {q' : List Nat}
    (h : popMaxQ s = some (id, q')) :
    id ∈ s.ready_queue ∧ q' = s.ready_queue.erase id := by
  unfold popMaxQ at h
  cases hq : s.ready_queue with
  | nil => rw [hq] at h; cases h
  | cons x xs =>
    rw [hq] at h
    simp only [Option.some_inj, Prod.mk.injEq] at h
    obtain ⟨h₁, h₂⟩ := h
    subst h₁
    exact ⟨chooseMax_mem (idLt s) x xs, h₂.symm⟩

theorem insertA_lookup_self {α : Type} (m : List (Nat × α)) (k : Nat) (v : α)
    (h : lookupA m k = some v) : insertA m k v = m := by
  induction m with
  | nil => simp [lookupA] at h
  | cons p rest ih =>
    obtain ⟨k₀, v₀⟩ := p
    by_cases h₀ : k₀ = k
    · subst h₀
      have hv : v₀ = v := by simpa [lookupA] using h
      subst hv
      simp [insertA]
    · simp only [lookupA, h₀, if_false] at h
      simp [insertA, h₀, ih h]

theorem task_set_state_self (t : Task) (st : TaskState) (h : t.state = st) :
    { t with state := st } = t := by
  cases t
  simp only at h
  simp [h]

/-- Shrinking the ready queue to a duplicate-free subset keeps the invariant. -/
theorem inv_queue (s : SchedulerState) (q' : List Nat) (hinv : Inv s)
    (hsub : ∀ i ∈ q', i ∈ s.ready_queue) (hnd : q'.Nodup) :
    Inv { s with ready_queue := q' } :=
  ⟨hinv.keys_nd, hinv.id_coh, hinv.fresh, hinv.deps_exist, hinv.cnt_keys_nd,
   hinv.dep_keys_nd, hinv.dep_sets_nd, hinv.cnt_pending, hinv.edge_coh,
   hinv.cnt_ge, hinv.ready_closed,
   fun i hi => hinv.q_sub i (hsub i hi), hnd, hinv.exec_comp,
   hinv.canc_flag, hinv.flag_state⟩

theorem inv_probe_running (s : SchedulerState) (id : Nat) (t : Task) (q' : List Nat)
    (hinv : Inv s) (hl : lookupA s.all_tasks id = some t) (hready : t.state = .READY)
    (hq' : q' = s.ready_queue.erase id) :
    Inv { s with all_tasks := insertA s.all_tasks id { t with state := .RUNNING },
                 ready_queue := q' } := by
  have hid : t.id = id := hinv.id_coh (id, t) (lookupA_mem hl)
  have hlt : id < s.next_task_id := lookup_lt_next s hinv hl
  refine ⟨?_, ?_, ?_, ?_, hinv.cnt_keys_nd, hinv.dep_keys_nd, hinv.dep_sets_nd,
    ?_, ?_, ?_, ?_, ?_, ?_, ?_, ?_, ?_⟩
  · exact keys_insertA_nodup id _ hinv.keys_nd
  · intro p hp
    rcases mem_insertA hp with h | h
    · exact hinv.id_coh p h
    · subst h; exact hid
  · intro p hp
    rcases mem_insertA hp with h | h
    · exact hinv.fresh p h
    · subst h; exact hlt
  · intro p hp d hd
    simp only
    rw [lookupA_insertA]
    by_cases hde : id = d
    · simp [hde]
    · simp only [hde, if_false]
      rcases mem_insertA hp with h | h
      · exact hinv.deps_exist p h d hd
      · subst h
        exact hinv.deps_exist (id, t) (lookupA_mem hl) d hd
  · intro k c hk
    obtain ⟨t₀, hlt₀, hp₀⟩ := hinv.cnt_pending k c hk
    have hki : id ≠ k := by
      rintro rfl
      rw [hl] at hlt₀
      cases hlt₀
      rw [hready] at hp₀
      cases hp₀
    refine ⟨t₀, ?_, hp₀⟩
    simp only
    rw [lookupA_insertA]
    simp [hki, hlt₀]
  · intro a ds hds b hb
    obtain ⟨tb, hltb, hmem⟩ := hinv.edge_coh a ds hds b hb
    simp only
    rw [lookupA_insertA]
    by_cases hbi : id = b
    · subst hbi
      rw [hl] at hltb
      cases hltb
      exact ⟨{ t with state := .RUNNING }, by simp, hmem⟩
    · simp only [hbi, if_false]
      exact ⟨tb, hltb, hmem⟩
  · intro k c tk hk hlk
    simp only at hlk
    rw [lookupA_insertA] at hlk
    have heq : ∀ tx : Task, liveDeps
        { s with all_tasks := insertA s.all_tasks id { t with state := .RUNNING },
                 ready_queue := q' } tx = liveDeps s tx := by
      intro tx
      apply liveDeps_congr_pred
      intro e _
      simp only [stateOf]
      rw [lookupA_insertA]
      by_cases hde : id = e
      · subst hde
        simp [hl, hready]
      · simp [hde]
    by_cases hki : id = k
    · subst hki
      simp only [if_true, Option.some_inj] at hlk
      obtain ⟨t₀, hlt₀, hp₀⟩ := hinv.cnt_pending id c hk
      rw [hl] at hlt₀
      cases hlt₀
      rw [hready] at hp₀
      cases hp₀
    · simp only [hki, if_false] at hlk
      rw [heq]
      exact hinv.cnt_ge k c tk hk hlk
  · intro k tk hlk hst d hd
    simp only at hlk
    rw [lookupA_insertA] at hlk
    have hgoal : ∀ e, e ≠ id → stateOf
        { s with all_tasks := insertA s.all_tasks id { t with state := .RUNNING },
                 ready_queue := q' } e = stateOf s e := by
      intro e he
      have he' : id ≠ e := fun h => he h.symm
      simp only [stateOf]
      rw [lookupA_insertA]
      simp [he']
    by_cases hki : id = k
    · subst hki
      simp only [if_true, Option.some_inj] at hlk
      subst hlk
      have hdc := hinv.ready_closed id t hl (Or.inl hready) d hd
      have hdne : d ≠ id := by
        rintro rfl
        simp only [stateOf, hl, Option.map_some'] at hdc
        rw [hready] at hdc
        simp at hdc
      rw [hgoal d hdne]
      exact hdc
    · simp only [hki, if_false] at hlk
      have hdc := hinv.ready_closed k tk hlk hst d hd
      have hdne : d ≠ id := by
        rintro rfl
        simp only [stateOf, hl, Option.map_some'] at hdc
        rw [hready] at hdc
        simp at hdc
      rw [hgoal d hdne]
      exact hdc
  · intro i hi
    subst hq'
    have hi' := (hinv.q_nd.mem_erase_iff).1 hi
    obtain ⟨ti, hlti, hRC⟩ := hinv.q_sub i hi'.2
    have hii : id ≠ i := fun h => hi'.1 h.symm
    refine ⟨ti, ?_, hRC⟩
    simp only
    rw [lookupA_insertA]
    simp [hii, hlti]
  · subst hq'
    exact hinv.q_nd.erase id
  · intro k tk hlk hex
    simp only at hlk
    rw [lookupA_insertA] at hlk
    by_cases hki : id = k
    · subst hki
      simp only [if_true, Option.some_inj] at hlk
      subst hlk
      simp only at hex
      have := hinv.exec_comp id t hl hex
      rw [hready] at this
      cases this
    · simp only [hki, if_false] at hlk
      exact hinv.exec_comp k tk hlk hex
  · intro k tk hlk hst
    simp only at hlk
    rw [lookupA_insertA] at hlk
    by_cases hki : id = k
    · subst hki
      simp only [if_true, Option.some_inj] at hlk
      subst hlk
      simp at hst
    · simp only [hki, if_false] at hlk
      exact hinv.canc_flag k tk hlk hst
  · intro k tk hlk hfl
    simp only at hlk
    rw [lookupA_insertA] at hlk
    by_cases hki : id = k
    · subst hki
      simp only [if_true, Option.some_inj] at hlk
      subst hlk
      exact ⟨by simp, by simp⟩
    · simp only [hki, if_false] at hlk
      exact hinv.flag_state k tk hlk hfl

/-- `start_probe` preserves the invariant. -/
theorem inv_probe (s : SchedulerState) (hinv : Inv s) : Inv (start_probe s) := by
  unfold start_probe
  cases hpop : popMaxQ s with
  | none => exact hinv
  | some pr =>
    obtain ⟨id, q'⟩ := pr
    obtain ⟨hmem, hq'⟩ := popMaxQ_spec hpop
    have hsub : ∀ i ∈ q', i ∈ s.ready_queue := by
      intro i hi
      rw [hq'] at hi
      exact List.mem_of_mem_erase hi
    have hnd : q'.Nodup := hq' ▸ hinv.q_nd.erase id
    simp only
    by_cases hshut : s.shutdown_requested
    · simp only [hshut, if_true]
      have := inv_queue s q' hinv hsub hnd
      simpa [hshut] using this
    · rw [if_neg hshut]
      obtain ⟨t, hl, hRC⟩ := hinv.q_sub id hmem
      rw [hl]
      simp only
      by_cases hflag : t.cancelRequested = true
      · rw [if_pos hflag]
        have hC : t.state = .CANCELLED := by
          rcases hRC with h | h
          · exact absurd h (hinv.flag_state id t hl hflag).2
          · exact h
        have hins : insertA s.all_tasks id { t with state := .CANCELLED } = s.all_tasks := by
          rw [task_set_state_self t .CANCELLED hC]
          exact insertA_lookup_self s.all_tasks id t hl
        rw [hins]
        exact inv_queue s q' hinv hsub hnd
      · rw [if_neg hflag]
        have hready : t.state = .READY := by
          rcases hRC with h | h
          · exact h
          · have := hinv.canc_flag id t hl h
            exact absurd this hflag
        exact inv_probe_running s id t q' hinv hl hready hq'

/-! ### Preservation: submit_task -/

theorem dedup_filter_append_le (l : List Nat) (d : Nat) (p : Nat → Bool) :
    ((l ++ [d]).dedup.filter p).length ≤ (l.dedup.filter p).length + 1 := by
  induction l with
  | nil =>
    have hd : ([d] : List Nat).dedup = [d] := List.dedup_cons_of_not_mem (by simp)
    rw [List.nil_append, hd]
    cases hp : p d <;> simp [List.filter, hp]
  | cons a l ih =>
    rw [List.cons_append]
    by_cases hal : a ∈ l
    · rw [List.dedup_cons_of_mem (List.mem_append_left _ hal),
        List.dedup_cons_of_mem hal]
      exact ih
    · by_cases had : a = d
      · subst had
        rw [List.dedup_cons_of_mem (List.mem_append_right _ (List.mem_singleton.2 rfl)),
          List.dedup_cons_of_not_mem hal, List.filter_cons]
        by_cases hp : p a = true <;> simp [hp] <;> omega
      · have hnotin : a ∉ l ++ [d] := by
          intro h
          rcases List.mem_append.1 h with h | h
          · exact hal h
          · exact had (List.mem_singleton.1 h)
        rw [List.dedup_cons_of_not_mem hnotin, List.dedup_cons_of_not_mem hal,
          List.filter_cons, List.filter_cons]
        by_cases hp : p a = true <;> simp [hp] <;> omega

/-- The dependency-registration loop only touches the submitted task's table
entry and the dependency manager. -/
theorem addDepsLoop_frame (id : Nat) : ∀ (ds : List Nat) (s : SchedulerState),
    (addDepsLoop s id ds).2.ready_queue = s.ready_queue ∧
    (addDepsLoop s id ds).2.next_task_id = s.next_task_id ∧
    (addDepsLoop s id ds).2.shutdown_requested = s.shutdown_requested ∧
    ∀ k, k ≠ id → lookupA (addDepsLoop s id ds).2.all_tasks k = lookupA s.all_tasks k := by
  intro ds
  induction ds with
  | nil =>
    intro s
    exact ⟨rfl, rfl, rfl, fun k _ => rfl⟩
  | cons d rest ih =>
    intro s
    rw [addDepsLoop]
    by_cases hn : (lookupA s.all_tasks d).isNone
    · rw [if_pos hn]
      exact ⟨rfl, rfl, rfl, fun k _ => rfl⟩
    · rw [if_neg hn]
      cases hl : lookupA s.all_tasks id with
      | none =>
        obtain ⟨h₁, h₂, h₃, h₄⟩ := ih { s with dm := s.dm.add_dependency id d }
        exact ⟨h₁, h₂, h₃, fun k hk => h₄ k hk⟩
      | some t =>
        obtain ⟨h₁, h₂, h₃, h₄⟩ := ih
          { s with
              all_tasks := insertA s.all_tasks id { t with dependencies := t.dependencies ++ [d] },
              dm := s.dm.add_dependency id d }
        refine ⟨h₁, h₂, h₃, fun k hk => ?_⟩
        rw [h₄ k hk]
        have hki : id ≠ k := fun h => hk h.symm
        simp only
        rw [lookupA_insertA]
        simp [hki]

/-- One iteration of the dependency-registration loop preserves the invariant. -/
theorem inv_addDepsStep (s : SchedulerState) (id d : Nat) (t : Task) (hinv : Inv s)
    (hl : lookupA s.all_tasks id = some t) (hpend : t.state = .PENDING)
    (hd : (lookupA s.all_tasks d).isNone = false)
    (hgd : ((liveDeps s t).length : Int) ≤ (lookupA s.dm.dependency_count id).getD 0) :
    Inv { s with
            all_tasks := insertA s.all_tasks id { t with dependencies := t.dependencies ++ [d] },
            dm := s.dm.add_dependency id d } := by
  have hid : t.id = id := hinv.id_coh (id, t) (lookupA_mem hl)
  have hlt : id < s.next_task_id := lookup_lt_next s hinv hl
  set t₁ : Task := { t with dependencies := t.dependencies ++ [d] } with ht₁
  have hstate : ∀ e, stateOf { s with
      all_tasks := insertA s.all_tasks id t₁,
      dm := s.dm.add_dependency id d } e = stateOf s e := by
    intro e
    simp only [stateOf]
    rw [lookupA_insertA]
    by_cases he : id = e
    · subst he
      simp [hl, ht₁]
    · simp [he]
  have hlive : ∀ tx : Task, liveDeps { s with
      all_tasks := insertA s.all_tasks id t₁,
      dm := s.dm.add_dependency id d } tx = liveDeps s tx := by
    intro tx
    apply liveDeps_congr
    intro e _
    exact hstate e
  refine ⟨?_, ?_, ?_, ?_, ?_, ?_, ?_, ?_, ?_, ?_, ?_, ?_, hinv.q_nd, ?_, ?_, ?_⟩
  · exact keys_insertA_nodup id _ hinv.keys_nd
  · intro p hp
    rcases mem_insertA hp with h | h
    · exact hinv.id_coh p h
    · subst h; exact hid
  · intro p hp
    rcases mem_insertA hp with h | h
    · exact hinv.fresh p h
    · subst h; exact hlt
  · intro p hp e he
    simp only
    rw [lookupA_insertA]
    by_cases hee : id = e
    · simp [hee]
    · simp only [hee, if_false]
      rcases mem_insertA hp with h | h
      · exact hinv.deps_exist p h e he
      · subst h
        simp only [ht₁] at he
        rcases List.mem_append.1 he with h' | h'
        · exact hinv.deps_exist (id, t) (lookupA_mem hl) e h'
        · have : e = d := List.mem_singleton.1 h'
          subst this
          cases hx : lookupA s.all_tasks e with
          | none => rw [hx] at hd; simp at hd
          | some _ => simp
  · exact keys_insertA_nodup _ _ hinv.cnt_keys_nd
  · exact keys_insertA_nodup _ _ hinv.dep_keys_nd
  · intro p hp
    rcases mem_insertA hp with h | h
    · exact hinv.dep_sets_nd p h
    · subst h
      apply DependencyManager.setInsert_nodup
      cases hdl : lookupA s.dm.dependents d with
      | none => simp
      | some ds₀ =>
        simp only [hdl, Option.getD_some]
        exact hinv.dep_sets_nd (d, ds₀) (lookupA_mem hdl)
  · intro k c hk
    simp only [DependencyManager.add_dependency] at hk
    rw [lookupA_insertA] at hk
    by_cases hki : id = k
    · subst hki
      refine ⟨t₁, by simp [lookupA_insertA_self], by simp [ht₁, hpend]⟩
    · simp only [hki, if_false] at hk
      obtain ⟨t₀, hlt₀, hp₀⟩ := hinv.cnt_pending k c hk
      refine ⟨t₀, ?_, hp₀⟩
      simp only
      rw [lookupA_insertA]
      simp [hki, hlt₀]
  · intro a ds hds b hb
    simp only [DependencyManager.add_dependency] at hds
    rw [lookupA_insertA] at hds
    by_cases had : d = a
    · subst had
      simp only [if_true] at hds
      have hds' := Option.some_inj.1 hds
      rw [← hds'] at hb
      rcases (DependencyManager.setInsert_mem _ _ _).1 hb with hb' | hb'
      · cases hdl : lookupA s.dm.dependents d with
        | none => rw [hdl] at hb'; simp at hb'
        | some ds₀ =>
          rw [hdl] at hb'
          simp only [Option.getD_some] at hb'
          obtain ⟨tb, hltb, hmem⟩ := hinv.edge_coh d ds₀ hdl b hb'
          simp only
          rw [lookupA_insertA]
          by_cases hbi : id = b
          · subst hbi
            rw [hl] at hltb
            cases hltb
            exact ⟨t₁, by simp, by simp [ht₁, List.mem_append, hmem]⟩
          · simp only [hbi, if_false]
            exact ⟨tb, hltb, hmem⟩
      · subst hb'
        refine ⟨t₁, ?_, ?_⟩
        · simp [lookupA_insertA_self]
        · simp [ht₁]
    · simp only [had, if_false] at hds
      obtain ⟨tb, hltb, hmem⟩ := hinv.edge_coh a ds hds b hb
      simp only
      rw [lookupA_insertA]
      by_cases hbi : id = b
      · subst hbi
        rw [hl] at hltb
        cases hltb
        exact ⟨t₁, by simp, by simp [ht₁, List.mem_append, hmem]⟩
      · simp only [hbi, if_false]
        exact ⟨tb, hltb, hmem⟩
  · intro k c tk hk hlk
    simp only [DependencyManager.add_dependency] at hk
    simp only at hlk
    rw [lookupA_insertA] at hk hlk
    rw [hlive]
    by_cases hki : id = k
    · subst hki
      simp only [if_true, Option.some_inj] at hk hlk
      subst hlk
      rw [← hk]
      have hlive₁ : (liveDeps s t₁).length ≤ (liveDeps s t).length + 1 := by
        simpa [liveDeps, ht₁] using dedup_filter_append_le t.dependencies d
          (fun e => decide (stateOf s e ≠ some .COMPLETED))
      omega
    · simp only [hki, if_false] at hk hlk
      exact hinv.cnt_ge k c tk hk hlk
  · intro k tk hlk hst e he
    simp only at hlk
    rw [lookupA_insertA] at hlk
    rw [hstate]
    by_cases hki : id = k
    · subst hki
      simp only [if_true, Option.some_inj] at hlk
      subst hlk
      simp only [ht₁, hpend] at hst
      rcases hst with h | h | h <;> cases h
    · simp only [hki, if_false] at hlk
      exact hinv.ready_closed k tk hlk hst e he
  · intro i hi
    obtain ⟨ti, hlti, hRC⟩ := hinv.q_sub i hi
    have hii : id ≠ i := by
      rintro rfl
      rw [hl] at hlti
      cases hlti
      rcases hRC with h | h <;> rw [hpend] at h <;> cases h
    refine ⟨ti, ?_, hRC⟩
    simp only
    rw [lookupA_insertA]
    simp [hii, hlti]
  · intro k tk hlk hex
    simp only at hlk
    rw [lookupA_insertA] at hlk
    by_cases hki : id = k
    · subst hki
      simp only [if_true, Option.some_inj] at hlk
      subst hlk
      simp only [ht₁] at hex
      have := hinv.exec_comp id t hl hex
      rw [hpend] at this
      cases this
    · simp only [hki, if_false] at hlk
      exact hinv.exec_comp k tk hlk hex
  · intro k tk hlk hst
    simp only at hlk
    rw [lookupA_insertA] at hlk
    by_cases hki : id = k
    · subst hki
      simp only [if_true, Option.some_inj] at hlk
      subst hlk
      simp only [ht₁] at hst
      rw [hpend] at hst
      cases hst
    · simp only [hki, if_false] at hlk
      exact hinv.canc_flag k tk hlk hst
  · intro k tk hlk hfl
    simp only at hlk
    rw [lookupA_insertA] at hlk
    by_cases hki : id = k
    · subst hki
      simp only [if_true, Option.some_inj] at hlk
      subst hlk
      simp only [ht₁] at hfl
      have := hinv.flag_state id t hl hfl
      simp only [ht₁]
      exact this
    · simp only [hki, if_false] at hlk
      exact hinv.flag_state k tk hlk hfl

theorem lookup_isSome_lt_next (s : SchedulerState) (hinv : Inv s) {e : Nat}
    (h : (lookupA s.all_tasks e).isSome) : e < s.next_task_id := by
  cases hx : lookupA s.all_tasks e with
  | none => rw [hx] at h; cases h
  | some te => exact lookup_lt_next s hinv hx

/-- The whole dependency-registration loop preserves the invariant, provided
the task being registered is pending and its live dependencies are covered by
its (possibly absent) pending count. -/
theorem inv_addDepsLoop (id : Nat) : ∀ (ds : List Nat) (s : SchedulerState), Inv s →
    ∀ t, lookupA s.all_tasks id = some t → t.state = .PENDING →
    ((liveDeps s t).length : Int) ≤ (lookupA s.dm.dependency_count id).getD 0 →
    Inv (addDepsLoop s id ds).2 := by
  intro ds
  induction ds with
  | nil =>
    intro s hinv t _ _ _
    exact hinv
  | cons d rest ih =>
    intro s hinv t hl hpend hgd
    rw [addDepsLoop]
    by_cases hn : (lookupA s.all_tasks d).isNone
    · rw [if_pos hn]
      exact hinv
    · rw [if_neg hn]
      rw [hl]
      have hd : (lookupA s.all_tasks d).isNone = false := by
        cases hx : lookupA s.all_tasks d with
        | none => rw [hx] at hn; simp at hn
        | some _ => simp
      set smid : SchedulerState :=
        { s with
            all_tasks := insertA s.all_tasks id { t with dependencies := t.dependencies ++ [d] },
            dm := s.dm.add_dependency id d } with hsmid
      have hinv' : Inv smid := inv_addDepsStep s id d t hinv hl hpend hd hgd
      have hstate : ∀ e, stateOf smid e = stateOf s e := by
        intro e
        simp only [stateOf, hsmid]
        rw [lookupA_insertA]
        by_cases he : id = e
        · subst he
          simp [hl]
        · simp [he]
      apply ih smid hinv' { t with dependencies := t.dependencies ++ [d] }
      · simp [hsmid, lookupA_insertA_self]
      · exact hpend
      · have hlook : lookupA smid.dm.dependency_count id =
            some ((lookupA s.dm.dependency_count id).getD 0 + 1) := by
          simp [hsmid, DependencyManager.add_dependency, lookupA_insertA_self]
        rw [hlook]
        have hcongr : liveDeps smid { t with dependencies := t.dependencies ++ [d] } =
            liveDeps s { t with dependencies := t.dependencies ++ [d] } :=
          liveDeps_congr _ (fun e _ => hstate e)
        have hlive₁ : (liveDeps s { t with dependencies := t.dependencies ++ [d] }).length ≤
            (liveDeps s t).length + 1 := by
          simpa [liveDeps] using dedup_filter_append_le t.dependencies d
            (fun e => decide (stateOf s e ≠ some .COMPLETED))
        rw [hcongr]
        simp only [Option.getD_some]
        omega

/-- A successful run of the loop appends exactly the listed dependencies to
the task's recorded dependency list. -/
theorem addDepsLoop_ok (id : Nat) : ∀ (ds : List Nat) (s : SchedulerState) (t : Task),
    lookupA s.all_tasks id = some t →
    (addDepsLoop s id ds).1 = .ok () →
    ∃ t', lookupA (addDepsLoop s id ds).2.all_tasks id = some t' ∧
      t'.dependencies = t.dependencies ++ ds ∧ t'.state = t.state := by
  intro ds
  induction ds with
  | nil =>
    intro s t hl _
    exact ⟨t, hl, by simp, rfl⟩
  | cons d rest ih =>
    intro s t hl hok
    rw [addDepsLoop] at hok ⊢
    by_cases hn : (lookupA s.all_tasks d).isNone
    · rw [if_pos hn] at hok
      cases hok
    · rw [if_neg hn] at hok ⊢
      rw [hl] at hok ⊢
      obtain ⟨t', hl', hdeps, hst⟩ := ih
        { s with
            all_tasks := insertA s.all_tasks id { t with dependencies := t.dependencies ++ [d] },
            dm := s.dm.add_dependency id d }
        { t with dependencies := t.dependencies ++ [d] }
        (by simp [lookupA_insertA_self]) hok
      refine ⟨t', hl', ?_, hst⟩
      rw [hdeps]
      simp

/-- `submit_task` while shutting down: fails, state untouched. -/
theorem submit_task_shutdown (s : SchedulerState) (p : Priority) (deps : List Nat)
    (h : s.shutdown_requested = true) :
    submit_task s p deps =
      (.error "Cannot submit task: scheduler is shutting down", s) := by
  simp [submit_task, h]

/-- `submit_task` when the cycle check fires: fails having only burned the id. -/
theorem submit_task_cycle (s : SchedulerState) (p : Priority) (deps : List Nat)
    (hs : s.shutdown_requested = false) (hne : deps ≠ [])
    (hc : s.dm.has_circular_dependency s.next_task_id deps = true) :
    submit_task s p deps =
      (.error "Circular dependency detected",
        { s with next_task_id := s.next_task_id + 1 }) := by
  simp [submit_task, hs, hne, hc]

/-- `submit_task` with no dependencies: new task goes straight to Ready. -/
theorem submit_task_nodeps (s : SchedulerState) (p : Priority)
    (hs : s.shutdown_requested = false) :
    submit_task s p [] =
      (.ok s.next_task_id,
        { s with
            all_tasks := insertA s.all_tasks s.next_task_id
              { mkTask s.next_task_id p with state := .READY },
            ready_queue := s.ready_queue ++ [s.next_task_id],
            next_task_id := s.next_task_id + 1 }) := by
  simp [submit_task, hs]

/-- `submit_task` with dependencies and no cycle: defers to the loop. -/
theorem submit_task_deps (s : SchedulerState) (p : Priority) (deps : List Nat)
    (hs : s.shutdown_requested = false) (hne : deps ≠ [])
    (hc : s.dm.has_circular_dependency s.next_task_id deps = false) :
    (submit_task s p deps).2 =
      (addDepsLoop
        { s with
            all_tasks := insertA s.all_tasks s.next_task_id (mkTask s.next_task_id p),
            next_task_id := s.next_task_id + 1 }
        s.next_task_id deps).2 ∧
    ((submit_task s p deps).1 = .ok s.next_task_id ↔
      (addDepsLoop
        { s with
            all_tasks := insertA s.all_tasks s.next_task_id (mkTask s.next_task_id p),
            next_task_id := s.next_task_id + 1 }
        s.next_task_id deps).1 = .ok ()) := by
  unfold submit_task
  rw [if_neg (by simp [hs])]
  simp only
  rw [if_neg (by simp [hc])]
  rw [if_neg hne]
  cases hres : (addDepsLoop
      { s with
          all_tasks := insertA s.all_tasks s.next_task_id (mkTask s.next_task_id p),
          next_task_id := s.next_task_id + 1 }
      s.next_task_id deps) with
  | mk r s₃ =>
    cases r with
    | error e => simp
    | ok u => simp

theorem inv_bump (s : SchedulerState) (hinv : Inv s) :
    Inv { s with next_task_id := s.next_task_id + 1 } :=
  ⟨hinv.keys_nd, hinv.id_coh, fun p hp => Nat.lt_succ_of_lt (hinv.fresh p hp),
   hinv.deps_exist, hinv.cnt_keys_nd, hinv.dep_keys_nd, hinv.dep_sets_nd,
   hinv.cnt_pending, hinv.edge_coh, hinv.cnt_ge, hinv.ready_closed,
   hinv.q_sub, hinv.q_nd, hinv.exec_comp, hinv.canc_flag, hinv.flag_state⟩

/-- Inserting a fresh task (id = next id) with the given record preserves most
invariant obligations; shared part of the two submit branches. -/
theorem inv_submit_insert (s : SchedulerState) (p : Priority) (hinv : Inv s)
    (tnew : Task) (hid : tnew.id = s.next_task_id) (hdeps : tnew.dependencies = [])
    (hflag : tnew.cancelRequested = false) (hexec : tnew.executed = false)
    (q' : List Nat)
    (hq' : q' = s.ready_queue ∨
      (q' = s.ready_queue ++ [s.next_task_id] ∧ tnew.state = .READY))
    (hstok : tnew.state = .PENDING ∨ tnew.state = .READY) :
    Inv { s with
            all_tasks := insertA s.all_tasks s.next_task_id tnew,
            ready_queue := q',
            next_task_id := s.next_task_id + 1 } := by
  have hnone : lookupA s.all_tasks s.next_task_id = none := lookupA_none_next s hinv
  have hNq : s.next_task_id ∉ s.ready_queue := by
    intro hmem
    obtain ⟨ti, hlti, _⟩ := hinv.q_sub _ hmem
    rw [hnone] at hlti
    cases hlti
  have hstate : ∀ e, e ≠ s.next_task_id →
      stateOf { s with
          all_tasks := insertA s.all_tasks s.next_task_id tnew,
          ready_queue := q',
          next_task_id := s.next_task_id + 1 } e = stateOf s e := by
    intro e he
    simp only [stateOf]
    rw [lookupA_insertA]
    have : s.next_task_id ≠ e := fun h => he h.symm
    simp [this]
  refine ⟨?_, ?_, ?_, ?_, hinv.cnt_keys_nd, hinv.dep_keys_nd, hinv.dep_sets_nd,
    ?_, ?_, ?_, ?_, ?_, ?_, ?_, ?_, ?_⟩
  · exact keys_insertA_nodup _ _ hinv.keys_nd
  · intro q hq
    rcases mem_insertA hq with h | h
    · exact hinv.id_coh q h
    · subst h; exact hid
  · intro q hq
    rcases mem_insertA hq with h | h
    · exact Nat.lt_succ_of_lt (hinv.fresh q h)
    · subst h; exact Nat.lt_succ_self _
  · intro q hq e he
    simp only
    rw [lookupA_insertA]
    by_cases hee : s.next_task_id = e
    · simp [hee]
    · simp only [hee, if_false]
      rcases mem_insertA hq with h | h
      · exact hinv.deps_exist q h e he
      · subst h
        rw [hdeps] at he
        cases he
  · intro k c hk
    obtain ⟨t₀, hlt₀, hp₀⟩ := hinv.cnt_pending k c hk
    have hkN : s.next_task_id ≠ k := by
      rintro rfl
      rw [hnone] at hlt₀
      cases hlt₀
    refine ⟨t₀, ?_, hp₀⟩
    simp only
    rw [lookupA_insertA]
    simp [hkN, hlt₀]
  · intro a ds hds b hb
    obtain ⟨tb, hltb, hmem⟩ := hinv.edge_coh a ds hds b hb
    have hbN : s.next_task_id ≠ b := by
      rintro rfl
      rw [hnone] at hltb
      cases hltb
    refine ⟨tb, ?_, hmem⟩
    simp only
    rw [lookupA_insertA]
    simp [hbN, hltb]
  · intro k c tk hk hlk
    obtain ⟨t₀, hlt₀, _⟩ := hinv.cnt_pending k c hk
    have hkN : s.next_task_id ≠ k := by
      rintro rfl
      rw [hnone] at hlt₀
      cases hlt₀
    simp only at hlk
    rw [lookupA_insertA] at hlk
    simp only [hkN, if_false] at hlk
    have hcongr : liveDeps { s with
        all_tasks := insertA s.all_tasks s.next_task_id tnew,
        ready_queue := q',
        next_task_id := s.next_task_id + 1 } tk = liveDeps s tk := by
      apply liveDeps_congr
      intro e he
      apply hstate
      intro heN
      have hsome := hinv.deps_exist (k, tk) (lookupA_mem hlk) e he
      rw [heN, hnone] at hsome
      cases hsome
    rw [hcongr]
    exact hinv.cnt_ge k c tk hk hlk
  · intro k tk hlk hst e he
    simp only at hlk
    rw [lookupA_insertA] at hlk
    by_cases hkN : s.next_task_id = k
    · simp only [hkN, if_true, Option.some_inj] at hlk
      subst hlk
      rw [hdeps] at he
      cases he
    · simp only [hkN, if_false] at hlk
      have hdc := hinv.ready_closed k tk hlk hst e he
      have heN : e ≠ s.next_task_id := by
        intro heq
        subst heq
        simp only [stateOf, hnone] at hdc
        cases hdc
      rw [hstate e heN]
      exact hdc
  · intro i hi
    have hiQ : i ∈ s.ready_queue ∨ i = s.next_task_id := by
      rcases hq' with rfl | ⟨rfl, _⟩
      · exact Or.inl hi
      · rcases List.mem_append.1 hi with h | h
        · exact Or.inl h
        · exact Or.inr (List.mem_singleton.1 h)
    rcases hiQ with hiq | rfl
    · obtain ⟨ti, hlti, hRC⟩ := hinv.q_sub i hiq
      have hiN : s.next_task_id ≠ i := by
        rintro rfl
        rw [hnone] at hlti
        cases hlti
      refine ⟨ti, ?_, hRC⟩
      simp only
      rw [lookupA_insertA]
      simp [hiN, hlti]
    · refine ⟨tnew, ?_, ?_⟩
      · simp [lookupA_insertA_self]
      · rcases hq' with rfl | ⟨_, hR⟩
        · exact absurd hi hNq
        · exact Or.inl hR
  · rcases hq' with rfl | ⟨rfl, _⟩
    · exact hinv.q_nd
    · refine hinv.q_nd.append (List.nodup_singleton _) ?_
      intro a ha hb
      simp only [List.mem_singleton] at hb
      subst hb
      exact hNq ha
  · intro k tk hlk hex
    simp only at hlk
    rw [lookupA_insertA] at hlk
    by_cases hkN : s.next_task_id = k
    · simp only [hkN, if_true, Option.some_inj] at hlk
      subst hlk
      rw [hexec] at hex
      cases hex
    · simp only [hkN, if_false] at hlk
      exact hinv.exec_comp k tk hlk hex
  · intro k tk hlk hst
    simp only at hlk
    rw [lookupA_insertA] at hlk
    by_cases hkN : s.next_task_id = k
    · simp only [hkN, if_true, Option.some_inj] at hlk
      subst hlk
      rcases hstok with h | h <;> rw [h] at hst <;> cases hst
    · simp only [hkN, if_false] at hlk
      exact hinv.canc_flag k tk hlk hst
  · intro k tk hlk hfl
    simp only at hlk
    rw [lookupA_insertA] at hlk
    by_cases hkN : s.next_task_id = k
    · simp only [hkN, if_true, Option.some_inj] at hlk
      subst hlk
      rw [hflag] at hfl
      cases hfl
    · simp only [hkN, if_false] at hlk
      exact hinv.flag_state k tk hlk hfl

/-- `submit_task` preserves the invariant. -/
theorem inv_submit (s : SchedulerState) (p : Priority) (deps : List Nat)
    (hinv : Inv s) : Inv (submit_task s p deps).2 := by
  by_cases hs : s.shutdown_requested = true
  · rw [submit_task_shutdown s p deps hs]
    exact hinv
  · have hs' : s.shutdown_requested = false := by
      cases hb : s.shutdown_requested
      · rfl
      · exact absurd hb hs
    by_cases hne : deps = []
    · subst hne
      rw [submit_task_nodeps s p hs']
      exact inv_submit_insert s p hinv
        { mkTask s.next_task_id p with state := .READY } rfl rfl rfl rfl
        (s.ready_queue ++ [s.next_task_id]) (Or.inr ⟨rfl, rfl⟩) (Or.inr rfl)
    · by_cases hc : s.dm.has_circular_dependency s.next_task_id deps = true
      · rw [submit_task_cycle s p deps hs' hne hc]
        exact inv_bump s hinv
      · have hc' : s.dm.has_circular_dependency s.next_task_id deps = false := by
          cases hb : s.dm.has_circular_dependency s.next_task_id deps
          · rfl
          · exact absurd hb hc
        rw [(submit_task_deps s p deps hs' hne hc').1]
        have hinvS₂ : Inv { s with
            all_tasks := insertA s.all_tasks s.next_task_id (mkTask s.next_task_id p),
            next_task_id := s.next_task_id + 1 } := by
          have := inv_submit_insert s p hinv (mkTask s.next_task_id p) rfl rfl rfl rfl
            s.ready_queue (Or.inl rfl) (Or.inl rfl)
          exact this
        apply inv_addDepsLoop s.next_task_id deps _ hinvS₂ (mkTask s.next_task_id p)
        · simp [lookupA_insertA_self]
        · rfl
        · have hcnone : lookupA s.dm.dependency_count s.next_task_id = none := by
            cases hx : lookupA s.dm.dependency_count s.next_task_id with
            | none => rfl
            | some c =>
              obtain ⟨t₀, hlt₀, _⟩ := hinv.cnt_pending _ c hx
              rw [lookupA_none_next s hinv] at hlt₀
              cases hlt₀
          simp [hcnone, liveDeps, mkTask]

/-! ### Preservation: finish_task -/

/-- Pushing a batch of newly-ready tasks preserves the invariant, provided
each is a pending task whose dependencies are all completed and whose pending
count entry has already been erased. -/
theorem inv_pushReady : ∀ (R : List Nat) (s : SchedulerState), Inv s → R.Nodup →
    (∀ r ∈ R, ∃ tr, lookupA s.all_tasks r = some tr ∧ tr.state = .PENDING ∧
      (∀ e ∈ tr.dependencies, stateOf s e = some .COMPLETED) ∧
      lookupA s.dm.dependency_count r = none) →
    Inv (pushReady s R) := by
  intro R
  induction R with
  | nil =>
    intro s hinv _ _
    exact hinv
  | cons r rest ih =>
    intro s hinv hnd hfacts
    obtain ⟨tr, hlr, hpend, hdepsC, hcnone⟩ := hfacts r (List.mem_cons_self r rest)
    rw [pushReady, hlr]
    have hrQ : r ∉ s.ready_queue := by
      intro hmem
      obtain ⟨ti, hlti, hRC⟩ := hinv.q_sub r hmem
      rw [hlr] at hlti
      cases hlti
      rcases hRC with h | h <;> rw [hpend] at h <;> cases h
    set s' : SchedulerState :=
      { s with all_tasks := insertA s.all_tasks r { tr with state := .READY },
               ready_queue := s.ready_queue ++ [r] } with hs'
    have hstate : ∀ e, e ≠ r → stateOf s' e = stateOf s e := by
      intro e he
      have hre : r ≠ e := fun h => he h.symm
      simp only [stateOf, hs']
      rw [lookupA_insertA]
      simp [hre]
    have hinv' : Inv s' := by
      have hid : tr.id = r := hinv.id_coh (r, tr) (lookupA_mem hlr)
      have hlt : r < s.next_task_id := lookup_lt_next s hinv hlr
      refine ⟨?_, ?_, ?_, ?_, hinv.cnt_keys_nd, hinv.dep_keys_nd, hinv.dep_sets_nd,
        ?_, ?_, ?_, ?_, ?_, ?_, ?_, ?_, ?_⟩
      · exact keys_insertA_nodup _ _ hinv.keys_nd
      · intro q hq
        rcases mem_insertA hq with h | h
        · exact hinv.id_coh q h
        · subst h; exact hid
      · intro q hq
        rcases mem_insertA hq with h | h
        · exact hinv.fresh q h
        · subst h; exact hlt
      · intro q hq e he
        simp only [hs']
        rw [lookupA_insertA]
        by_cases hee : r = e
        · simp [hee]
        · simp only [hee, if_false]
          rcases mem_insertA hq with h | h
          · exact hinv.deps_exist q h e he
          · subst h
            exact hinv.deps_exist (r, tr) (lookupA_mem hlr) e he
      · intro k c hk
        obtain ⟨t₀, hlt₀, hp₀⟩ := hinv.cnt_pending k c hk
        have hkr : r ≠ k := by
          rintro rfl
          rw [hcnone] at hk
          cases hk
        refine ⟨t₀, ?_, hp₀⟩
        simp only [hs']
        rw [lookupA_insertA]
        simp [hkr, hlt₀]
      · intro a ds hds b hb
        obtain ⟨tb, hltb, hmem⟩ := hinv.edge_coh a ds hds b hb
        simp only [hs']
        rw [lookupA_insertA]
        by_cases hbr : r = b
        · subst hbr
          rw [hlr] at hltb
          cases hltb
          exact ⟨{ tr with state := .READY }, by simp, hmem⟩
        · simp only [hbr, if_false]
          exact ⟨tb, hltb, hmem⟩
      · intro k c tk hk hlk
        simp only [hs'] at hlk
        rw [lookupA_insertA] at hlk
        have hcongr : ∀ tx : Task, liveDeps s' tx = liveDeps s tx := by
          intro tx
          apply liveDeps_congr_pred
          intro e _
          by_cases hre : e = r
          · subst hre
            simp only [stateOf, hs']
            rw [lookupA_insertA]
            simp only [if_pos rfl, hlr, Option.map_some']
            rw [hpend]
            constructor
            · intro h; cases h
            · intro h; cases h
          · rw [hstate e hre]
        by_cases hkr : r = k
        · subst hkr
          rw [hcnone] at hk
          cases hk
        · simp only [hkr, if_false] at hlk
          rw [hcongr]
          exact hinv.cnt_ge k c tk hk hlk
      · intro k tk hlk hst e he
        simp only [hs'] at hlk
        rw [lookupA_insertA] at hlk
        by_cases hkr : r = k
        · subst hkr
          rw [if_pos rfl] at hlk
          have htk := Option.some_inj.1 hlk
          subst htk
          simp only at he
          have hC := hdepsC e he
          have her : e ≠ r := by
            rintro rfl
            simp only [stateOf, hlr, Option.map_some'] at hC
            rw [hpend] at hC
            cases hC
          rw [hstate e her]
          exact hC
        · simp only [hkr, if_false] at hlk
          have hC := hinv.ready_closed k tk hlk hst e he
          have her : e ≠ r := by
            rintro rfl
            simp only [stateOf, hlr, Option.map_some'] at hC
            rw [hpend] at hC
            cases hC
          rw [hstate e her]
          exact hC
      · intro i hi
        simp only [hs'] at hi
        rcases List.mem_append.1 hi with hiq | hir
        · obtain ⟨ti, hlti, hRC⟩ := hinv.q_sub i hiq
          have hir : r ≠ i := by
            rintro rfl
            exact hrQ hiq
          refine ⟨ti, ?_, hRC⟩
          simp only [hs']
          rw [lookupA_insertA]
          simp [hir, hlti]
        · have : i = r := List.mem_singleton.1 hir
          subst this
          refine ⟨{ tr with state := .READY }, ?_, Or.inl rfl⟩
          simp only [hs']
          rw [lookupA_insertA]
          simp
      · simp only [hs']
        refine hinv.q_nd.append (List.nodup_singleton r) ?_
        intro a ha hb
        simp only [List.mem_singleton] at hb
        subst hb
        exact hrQ ha
      · intro k tk hlk hex
        simp only [hs'] at hlk
        rw [lookupA_insertA] at hlk
        by_cases hkr : r = k
        · subst hkr
          rw [if_pos rfl] at hlk
          have htk := Option.some_inj.1 hlk
          subst htk
          simp only at hex
          have := hinv.exec_comp r tr hlr hex
          rw [hpend] at this
          cases this
        · simp only [hkr, if_false] at hlk
          exact hinv.exec_comp k tk hlk hex
      · intro k tk hlk hst
        simp only [hs'] at hlk
        rw [lookupA_insertA] at hlk
        by_cases hkr : r = k
        · subst hkr
          rw [if_pos rfl] at hlk
          have htk := Option.some_inj.1 hlk
          subst htk
          simp at hst
        · simp only [hkr, if_false] at hlk
          exact hinv.canc_flag k tk hlk hst
      · intro k tk hlk hfl
        simp only [hs'] at hlk
        rw [lookupA_insertA] at hlk
        by_cases hkr : r = k
        · subst hkr
          rw [if_pos rfl] at hlk
          have htk := Option.some_inj.1 hlk
          subst htk
          simp only at hfl
          have := hinv.flag_state r tr hlr hfl
          rw [hpend] at this
          exact absurd rfl this.1
        · simp only [hkr, if_false] at hlk
          exact hinv.flag_state k tk hlk hfl
    apply ih s' hinv' hnd.of_cons
    intro r' hr'
    have hr'r : r' ≠ r := by
      rintro rfl
      exact (List.nodup_cons.1 hnd).1 hr'
    obtain ⟨tr', hlr', hpend', hdepsC', hcnone'⟩ :=
      hfacts r' (List.mem_cons_of_mem _ hr')
    refine ⟨tr', ?_, hpend', ?_, hcnone'⟩
    · simp only [hs']
      rw [lookupA_insertA]
      have : r ≠ r' := fun h => hr'r h.symm
      simp [this, hlr']
    · intro e he
      have hC := hdepsC' e he
      have her : e ≠ r := by
        rintro rfl
        simp only [stateOf, hlr, Option.map_some'] at hC
        rw [hpend] at hC
        cases hC
      rw [hstate e her]
      exact hC

theorem length_le_one_mem {α : Type} {l : List α} (h : l.length ≤ 1) {a b : α}
    (ha : a ∈ l) (hb : b ∈ l) : a = b := by
  cases l with
  | nil => cases ha
  | cons x xs =>
    have hxs : xs = [] := by
      cases xs with
      | nil => rfl
      | cons y ys => simp at h
    subst hxs
    simp only [List.mem_singleton] at ha hb
    rw [ha, hb]

/-- Completing a running task (state to COMPLETED, executed flag set)
preserves the invariant. -/
theorem inv_complete (s : SchedulerState) (id : Nat) (t : Task) (hinv : Inv s)
    (hl : lookupA s.all_tasks id = some t) (hrun : t.state = .RUNNING) :
    Inv { s with
            all_tasks :=
              insertA s.all_tasks id { t with state := .COMPLETED, executed := true } } := by
  have hid : t.id = id := hinv.id_coh (id, t) (lookupA_mem hl)
  have hlt : id < s.next_task_id := lookup_lt_next s hinv hl
  set t₁ : Task := { t with state := .COMPLETED, executed := true } with ht₁
  have hstate : ∀ e, e ≠ id → stateOf
      { s with all_tasks := insertA s.all_tasks id t₁ } e = stateOf s e := by
    intro e he
    have hie : id ≠ e := fun h => he h.symm
    simp only [stateOf]
    rw [lookupA_insertA]
    simp [hie]
  refine ⟨?_, ?_, ?_, ?_, hinv.cnt_keys_nd, hinv.dep_keys_nd, hinv.dep_sets_nd,
    ?_, ?_, ?_, ?_, ?_, hinv.q_nd, ?_, ?_, ?_⟩
  · exact keys_insertA_nodup _ _ hinv.keys_nd
  · intro q hq
    rcases mem_insertA hq with h | h
    · exact hinv.id_coh q h
    · subst h; exact hid
  · intro q hq
    rcases mem_insertA hq with h | h
    · exact hinv.fresh q h
    · subst h; exact hlt
  · intro q hq e he
    simp only
    rw [lookupA_insertA]
    by_cases hee : id = e
    · simp [hee]
    · simp only [hee, if_false]
      rcases mem_insertA hq with h | h
      · exact hinv.deps_exist q h e he
      · subst h
        exact hinv.deps_exist (id, t) (lookupA_mem hl) e he
  · intro k c hk
    obtain ⟨t₀, hlt₀, hp₀⟩ := hinv.cnt_pending k c hk
    have hki : id ≠ k := by
      rintro rfl
      rw [hl] at hlt₀
      cases hlt₀
      rw [hrun] at hp₀
      cases hp₀
    refine ⟨t₀, ?_, hp₀⟩
    simp only
    rw [lookupA_insertA]
    simp [hki, hlt₀]
  · intro a ds hds b hb
    obtain ⟨tb, hltb, hmem⟩ := hinv.edge_coh a ds hds b hb
    simp only
    rw [lookupA_insertA]
    by_cases hbi : id = b
    · subst hbi
      rw [hl] at hltb
      cases hltb
      exact ⟨t₁, by simp, hmem⟩
    · simp only [hbi, if_false]
      exact ⟨tb, hltb, hmem⟩
  · intro k c tk hk hlk
    simp only at hlk
    rw [lookupA_insertA] at hlk
    have hmono : ∀ tx : Task, (liveDeps
        { s with all_tasks := insertA s.all_tasks id t₁ } tx).length ≤
        (liveDeps s tx).length := by
      intro tx
      apply liveDeps_length_mono
      intro e _ hC
      by_cases hei : e = id
      · subst hei
        simp only [stateOf, hl, Option.map_some'] at hC
        rw [hrun] at hC
        cases hC
      · rw [hstate e hei]
        exact hC
    by_cases hki : id = k
    · subst hki
      obtain ⟨t₀, hlt₀, hp₀⟩ := hinv.cnt_pending id c hk
      rw [hl] at hlt₀
      cases hlt₀
      rw [hrun] at hp₀
      cases hp₀
    · simp only [hki, if_false] at hlk
      calc ((liveDeps { s with all_tasks := insertA s.all_tasks id t₁ } tk).length : Int)
          ≤ ((liveDeps s tk).length : Int) := by exact_mod_cast hmono tk
        _ ≤ c := hinv.cnt_ge k c tk hk hlk
  · intro k tk hlk hst e he
    simp only at hlk
    rw [lookupA_insertA] at hlk
    by_cases hki : id = k
    · subst hki
      rw [if_pos rfl] at hlk
      have htk := Option.some_inj.1 hlk
      subst htk
      simp only [ht₁] at he
      have hC := hinv.ready_closed id t hl (Or.inr (Or.inl hrun)) e he
      by_cases hei : e = id
      · subst hei
        simp only [stateOf]
        rw [lookupA_insertA]
        simp [ht₁]
      · rw [hstate e hei]
        exact hC
    · simp only [hki, if_false] at hlk
      have hC := hinv.ready_closed k tk hlk hst e he
      by_cases hei : e = id
      · subst hei
        simp only [stateOf]
        rw [lookupA_insertA]
        simp [ht₁]
      · rw [hstate e hei]
        exact hC
  · intro i hi
    obtain ⟨ti, hlti, hRC⟩ := hinv.q_sub i hi
    have hii : id ≠ i := by
      rintro rfl
      rw [hl] at hlti
      cases hlti
      rcases hRC with h | h <;> rw [hrun] at h <;> cases h
    refine ⟨ti, ?_, hRC⟩
    simp only
    rw [lookupA_insertA]
    simp [hii, hlti]
  · intro k tk hlk hex
    simp only at hlk
    rw [lookupA_insertA] at hlk
    by_cases hki : id = k
    · subst hki
      rw [if_pos rfl] at hlk
      have htk := Option.some_inj.1 hlk
      subst htk
      simp [ht₁]
    · simp only [hki, if_false] at hlk
      exact hinv.exec_comp k tk hlk hex
  · intro k tk hlk hst
    simp only at hlk
    rw [lookupA_insertA] at hlk
    by_cases hki : id = k
    · subst hki
      rw [if_pos rfl] at hlk
      have htk := Option.some_inj.1 hlk
      subst htk
      simp at hst
    · simp only [hki, if_false] at hlk
      exact hinv.canc_flag k tk hlk hst
  · intro k tk hlk hfl
    simp only at hlk
    rw [lookupA_insertA] at hlk
    by_cases hki : id = k
    · subst hki
      rw [if_pos rfl] at hlk
      have htk := Option.some_inj.1 hlk
      subst htk
      simp [ht₁]
    · simp only [hki, if_false] at hlk
      exact hinv.flag_state k tk hlk hfl

/-- Every task returned by `mark_completed(id)` is a pending task that listed
`id` among its dependencies and whose every other dependency is completed:
`id`'s completion is the trigger that makes it ready. -/
theorem finish_ready_facts (s : SchedulerState) (id : Nat) (t : Task) (ds : List Nat)
    (hinv : Inv s) (hl : lookupA s.all_tasks id = some t) (hrun : t.state = .RUNNING)
    (hdl : lookupA s.dm.dependents id = some ds) :
    ∀ r ∈ (DependencyManager.markLoop s.dm.dependency_count ds).1,
      ∃ tr, lookupA s.all_tasks r = some tr ∧ tr.state = .PENDING ∧ r ≠ id ∧
        id ∈ tr.dependencies ∧
        (∀ e ∈ tr.dependencies, e ≠ id → stateOf s e = some .COMPLETED) := by
  intro r hr
  have hnds : ds.Nodup := hinv.dep_sets_nd (id, ds) (lookupA_mem hdl)
  rw [DependencyManager.markLoop_ready_iff _ _ _ hnds] at hr
  obtain ⟨hrds, hc1⟩ := hr
  obtain ⟨tr, hltr, hpend⟩ := hinv.cnt_pending r 1 hc1
  obtain ⟨tr', hltr', hidmem⟩ := hinv.edge_coh id ds hdl r hrds
  rw [hltr] at hltr'
  have htr : tr' = tr := Option.some_inj.1 hltr'.symm
  subst htr
  have hne : r ≠ id := by
    rintro rfl
    rw [hl] at hltr
    cases hltr
    rw [hrun] at hpend
    cases hpend
  have hge := hinv.cnt_ge r 1 tr' hc1 hltr
  have hlen : (liveDeps s tr').length ≤ 1 := by exact_mod_cast hge
  have hidlive : id ∈ liveDeps s tr' := by
    unfold liveDeps
    apply List.mem_filter.2
    refine ⟨List.mem_dedup.2 hidmem, ?_⟩
    simp [stateOf, hl, hrun]
  refine ⟨tr', hltr, hpend, hne, hidmem, ?_⟩
  intro e he hei
  by_contra hnc
  have hmem : e ∈ liveDeps s tr' :=
    List.mem_filter.2 ⟨List.mem_dedup.2 he, by simpa using hnc⟩
  exact hei (length_le_one_mem hlen hmem hidlive)

/-- `finish_task` preserves the invariant. -/
theorem inv_finish (s : SchedulerState) (id : Nat) (hinv : Inv s) :
    Inv (finish_task s id) := by
  unfold finish_task
  cases hl : lookupA s.all_tasks id with
  | none => exact hinv
  | some t =>
    simp only
    by_cases hrun : t.state = .RUNNING
    · rw [if_pos hrun]
      have hinv₁ := inv_complete s id t hinv hl hrun
      set t₁ : Task := { t with state := .COMPLETED, executed := true } with ht₁
      set s₁ : SchedulerState :=
        { s with all_tasks := insertA s.all_tasks id t₁ } with hs₁
      unfold DependencyManager.mark_completed
      cases hdl : lookupA s.dm.dependents id with
      | none =>
        simp only [hdl]
        exact hinv₁
      | some ds =>
        simp only [hdl]
        have hnds : ds.Nodup := hinv.dep_sets_nd (id, ds) (lookupA_mem hdl)
        have hndR : (DependencyManager.markLoop s.dm.dependency_count ds).1.Nodup :=
          (DependencyManager.markLoop_sublist _ _).nodup hnds
        have hstate₁ : ∀ e, e ≠ id → stateOf s₁ e = stateOf s e := by
          intro e he
          have hie : id ≠ e := fun h => he h.symm
          simp only [stateOf, hs₁]
          rw [lookupA_insertA]
          simp [hie]
        have hstid : stateOf s₁ id = some .COMPLETED := by
          simp only [stateOf, hs₁]
          rw [lookupA_insertA]
          simp [ht₁]
        set cnt' := (DependencyManager.markLoop s.dm.dependency_count ds).2 with hcnt'
        set s₂ : SchedulerState :=
          { s₁ with dm := ⟨eraseA s.dm.dependents id, cnt'⟩ } with hs₂
        have hinv₂ : Inv s₂ := by
          refine ⟨hinv₁.keys_nd, hinv₁.id_coh, hinv₁.fresh, hinv₁.deps_exist,
            ?_, ?_, ?_, ?_, ?_, ?_, hinv₁.ready_closed, hinv₁.q_sub, hinv₁.q_nd,
            hinv₁.exec_comp, hinv₁.canc_flag, hinv₁.flag_state⟩
          · exact DependencyManager.markLoop_keys_nodup _ _ hinv.cnt_keys_nd
          · exact keys_eraseA_nodup _ hinv.dep_keys_nd
          · intro p hp
            exact hinv.dep_sets_nd p (mem_eraseA hp)
          · intro k c hk
            simp only [hs₂, hcnt'] at hk
            by_cases hkds : k ∈ ds
            · rw [DependencyManager.markLoop_lookup_mem _ _ _ hnds hkds] at hk
              cases hck : lookupA s.dm.dependency_count k with
              | none => rw [hck] at hk; cases hk
              | some c₀ =>
                rw [hck] at hk
                dsimp only at hk
                by_cases hc₀ : c₀ = 1
                · rw [if_pos hc₀] at hk; cases hk
                · rw [if_neg hc₀] at hk
                  obtain ⟨t₀, hlt₀, hp₀⟩ := hinv.cnt_pending k c₀ hck
                  have hki : id ≠ k := by
                    rintro rfl
                    rw [hl] at hlt₀
                    cases hlt₀
                    rw [hrun] at hp₀
                    cases hp₀
                  refine ⟨t₀, ?_, hp₀⟩
                  simp only [hs₂, hs₁]
                  rw [lookupA_insertA]
                  simp [hki, hlt₀]
            · rw [DependencyManager.markLoop_lookup_not_mem _ _ _ hkds] at hk
              obtain ⟨t₀, hlt₀, hp₀⟩ := hinv.cnt_pending k c hk
              have hki : id ≠ k := by
                rintro rfl
                rw [hl] at hlt₀
                cases hlt₀
                rw [hrun] at hp₀
                cases hp₀
              refine ⟨t₀, ?_, hp₀⟩
              simp only [hs₂, hs₁]
              rw [lookupA_insertA]
              simp [hki, hlt₀]
          · intro a dsa hdsa b hb
            simp only [hs₂] at hdsa
            by_cases hai : a = id
            · subst hai
              rw [lookupA_eraseA_self] at hdsa
              cases hdsa
            · rw [lookupA_eraseA_ne _ _ _ (fun h => hai h.symm)] at hdsa
              obtain ⟨tb, hltb, hmem⟩ := hinv.edge_coh a dsa hdsa b hb
              simp only [hs₂, hs₁]
              rw [lookupA_insertA]
              by_cases hbi : id = b
              · subst hbi
                rw [hl] at hltb
                cases hltb
                exact ⟨t₁, by simp, hmem⟩
              · simp only [hbi, if_false]
                exact ⟨tb, hltb, hmem⟩
          · intro k c tk hk hlk
            simp only [hs₂, hcnt'] at hk
            have hlk₁ : lookupA s₁.all_tasks k = some tk := hlk
            by_cases hkds : k ∈ ds
            · rw [DependencyManager.markLoop_lookup_mem _ _ _ hnds hkds] at hk
              cases hck : lookupA s.dm.dependency_count k with
              | none => rw [hck] at hk; cases hk
              | some c₀ =>
                rw [hck] at hk
                dsimp only at hk
                by_cases hc₀ : c₀ = 1
                · rw [if_pos hc₀] at hk; cases hk
                · rw [if_neg hc₀] at hk
                  have hc : c = c₀ - 1 := (Option.some_inj.1 hk).symm
                  obtain ⟨t₀, hlt₀, hp₀⟩ := hinv.cnt_pending k c₀ hck
                  have hki : id ≠ k := by
                    rintro rfl
                    rw [hl] at hlt₀
                    cases hlt₀
                    rw [hrun] at hp₀
                    cases hp₀
                  have hlks : lookupA s.all_tasks k = some tk := by
                    simp only [hs₁] at hlk₁
                    rw [lookupA_insertA] at hlk₁
                    simpa [hki] using hlk₁
                  have hold := hinv.cnt_ge k c₀ tk hck hlks
                  obtain ⟨tk', hlk', hidmem⟩ := hinv.edge_coh id ds hdl k hkds
                  rw [hlks] at hlk'
                  have htk' : tk' = tk := Option.some_inj.1 hlk'.symm
                  subst htk'
                  have hidlive : id ∈ liveDeps s tk' := by
                    unfold liveDeps
                    apply List.mem_filter.2
                    refine ⟨List.mem_dedup.2 hidmem, ?_⟩
                    simp [stateOf, hl, hrun]
                  have hlt := liveDeps_length_lt tk' id
                    (fun e _ hei => hstate₁ e hei) hstid hidlive
                  have : liveDeps s₂ tk' = liveDeps s₁ tk' := rfl
                  rw [this, hc]
                  omega
            · rw [DependencyManager.markLoop_lookup_not_mem _ _ _ hkds] at hk
              have : liveDeps s₂ tk = liveDeps s₁ tk := rfl
              rw [this]
              exact hinv₁.cnt_ge k c tk hk hlk₁
        apply inv_pushReady _ s₂ hinv₂ hndR
        intro r hr
        obtain ⟨tr, hltr, hpend, hne, hidmem, hothers⟩ :=
          finish_ready_facts s id t ds hinv hl hrun hdl r hr
        have hrds : r ∈ ds ∧ lookupA s.dm.dependency_count r = some 1 := by
          rwa [DependencyManager.markLoop_ready_iff _ _ _ hnds] at hr
        refine ⟨tr, ?_, hpend, ?_, ?_⟩
        · simp only [hs₂, hs₁]
          rw [lookupA_insertA]
          have : id ≠ r := fun h => hne h.symm
          simp [this, hltr]
        · intro e he
          show stateOf s₁ e = some .COMPLETED
          by_cases hei : e = id
          · subst hei
            exact hstid
          · rw [hstate₁ e hei]
            exact hothers e he hei
        · show lookupA cnt' r = none
          rw [hcnt', DependencyManager.markLoop_lookup_mem _ _ _ hnds hrds.1, hrds.2]
          simp
    · rw [if_neg hrun]
      exact hinv

/-- Every scheduler step preserves the invariant. -/
theorem inv_step {s s' : SchedulerState} (hstep : Step s s') (hinv : Inv s) : Inv s' := by
  cases hstep with
  | submit p deps => exact inv_submit s p deps hinv
  | cancel id => exact inv_cancel s id hinv
  | probe => exact inv_probe s hinv
  | finish id => exact inv_finish s id hinv
  | shut => exact inv_shutdown s hinv

theorem inv_stepStar {s s' : SchedulerState} (h : StepStar s s') (hinv : Inv s) :
    Inv s' := by
  induction h with
  | refl => exact hinv
  | tail _ hstep ih => exact inv_step hstep ih

/-- Every reachable scheduler state satisfies the invariant. -/
theorem reachable_inv {s : SchedulerState} (h : Reachable s) : Inv s :=
  inv_stepStar h inv_init

/-! ### Frame lemmas used by the claim proofs -/

theorem pushReady_lookup_not_mem : ∀ (R : List Nat) (s : SchedulerState) (k : Nat),
    k ∉ R → lookupA (pushReady s R).all_tasks k = lookupA s.all_tasks k := by
  intro R
  induction R with
  | nil => intro s k _; rfl
  | cons r rest ih =>
    intro s k hk
    have hkr : k ≠ r := fun h => hk (h ▸ List.mem_cons_self r rest)
    have hkrest : k ∉ rest := fun h => hk (List.mem_cons_of_mem _ h)
    rw [pushReady]
    cases hlr : lookupA s.all_tasks r with
    | none => exact ih s k hkrest
    | some rt =>
      rw [ih _ k hkrest]
      simp only
      rw [lookupA_insertA]
      have : r ≠ k := fun h => hkr h.symm
      simp [this]

theorem pushReady_frame : ∀ (R : List Nat) (s : SchedulerState),
    (pushReady s R).dm = s.dm ∧ (pushReady s R).next_task_id = s.next_task_id ∧
    (pushReady s R).shutdown_requested = s.shutdown_requested := by
  intro R
  induction R with
  | nil => intro s; exact ⟨rfl, rfl, rfl⟩
  | cons r rest ih =>
    intro s
    rw [pushReady]
    cases hlr : lookupA s.all_tasks r with
    | none => exact ih s
    | some rt => exact ih _

theorem cancel_task_shutdown_frame (s : SchedulerState) (id : Nat) :
    (cancel_task s id).2.shutdown_requested = s.shutdown_requested := by
  unfold cancel_task
  cases lookupA s.all_tasks id with
  | none => rfl
  | some t =>
    simp only
    split
    · rfl
    · split <;> rfl

theorem probe_shutdown_frame (s : SchedulerState) :
    (start_probe s).shutdown_requested = s.shutdown_requested := by
  unfold start_probe
  cases popMaxQ s with
  | none => rfl
  | some pr =>
    obtain ⟨id, q'⟩ := pr
    simp only
    split
    · rfl
    · cases lookupA s.all_tasks id with
      | none => rfl
      | some t =>
        simp only
        split <;> rfl

theorem finish_shutdown_frame (s : SchedulerState) (id : Nat) :
    (finish_task s id).shutdown_requested = s.shutdown_requested := by
  unfold finish_task
  cases lookupA s.all_tasks id with
  | none => rfl
  | some t =>
    simp only
    split
    · exact (pushReady_frame _ _).2.2
    · rfl

/-- The shutdown flag is never cleared by any step. -/
theorem step_shutdown_mono {u u' : SchedulerState} (hstep : Step u u')
    (h : u.shutdown_requested = true) : u'.shutdown_requested = true := by
  cases hstep with
  | submit p deps => rw [submit_task_shutdown u p deps h]; exact h
  | cancel id => rw [cancel_task_shutdown_frame]; exact h
  | probe => rw [probe_shutdown_frame]; exact h
  | finish id => rw [finish_shutdown_frame]; exact h
  | shut => rfl

theorem stepStar_shutdown_mono {u u' : SchedulerState} (h : StepStar u u')
    (hs : u.shutdown_requested = true) : u'.shutdown_requested = true := by
  induction h with
  | refl => exact hs
  | tail _ hstep ih => exact step_shutdown_mono hstep ih

/-! ## The claims -/

/-- **C1** (code_bug evidence).  The spec says a `submit_task` call that
references an unknown dependency id fails and leaves the task table
unchanged, with no dependency edges committed.  The code does fail
synchronously, but it inserts the new task into the table *before*
validating the dependency list and registers each edge before looking at the
next listed dependency, and the throw skips any rollback: submitting X (id
1) and then Y with dependencies `[1, 9999]` yields the error, yet the table
has grown from 1 to 2 entries, Y's entry is left `PENDING`, and the edge
1 → 2 with `dependency_count[2] = 1` stays committed in the
DependencyManager. -/
theorem claim_C1_partial_commit :
    (submit_task initState .NORMAL []).1 = .ok 1 ∧
    (submit_task initState .NORMAL []).2.all_tasks.length = 1 ∧
    (submit_task (submit_task initState .NORMAL []).2 .NORMAL [1, 9999]).1 =
      .error "Dependency task does not exist" ∧
    (submit_task (submit_task initState .NORMAL []).2 .NORMAL [1, 9999]).2.all_tasks.length
      = 2 ∧
    get_task_status (submit_task (submit_task initState .NORMAL []).2 .NORMAL [1, 9999]).2 2
      = .ok .PENDING ∧
    lookupA (submit_task (submit_task initState .NORMAL []).2 .NORMAL
      [1, 9999]).2.dm.dependents 1 = some [2] ∧
    lookupA (submit_task (submit_task initState .NORMAL []).2 .NORMAL
      [1, 9999]).2.dm.dependency_count 2 = some 1 := by
  decide

/-- Reachability over the dependents adjacency allowing the empty path: the
reading of C2 under which a candidate equal to the task itself counts as
closing a cycle on its own. -/
inductive ReachesRefl (dm : DependencyManager) : Nat → Nat → Prop
  | refl (a : Nat) : ReachesRefl dm a a
  | head {a b c : Nat} : b ∈ DependencyManager.get_dependents dm a →
      ReachesRefl dm b c → ReachesRefl dm a c

/-- **C2** (counterexample).  As stated — `has_circular_dependency(t, D)` true
iff some `d ∈ D` reaches `t`, counting `d = t` itself as closing a cycle —
the claim fails: on the empty graph with `t = 5` and `D = [5]`, the
self-dependency reaches `t` by the empty path, yet the DFS returns `false`
(its `current = start` test is guarded by a non-empty recursion stack, so the
candidate node itself never triggers it unless the graph already has a
non-trivial path back). -/
theorem claim_C2_counterexample :
    ¬ (DependencyManager.has_circular_dependency ⟨[], []⟩ 5 [5] = true ↔
        ∃ d ∈ [5], ReachesRefl ⟨[], []⟩ d 5) := by
  intro h
  have htrue : DependencyManager.has_circular_dependency ⟨[], []⟩ 5 [5] = true :=
    h.2 ⟨5, List.mem_singleton.2 rfl, ReachesRefl.refl 5⟩
  have hfalse : DependencyManager.has_circular_dependency ⟨[], []⟩ 5 [5] = false := by
    decide
  rw [htrue] at hfalse
  cases hfalse

/-- **C2** (amended).  `has_circular_dependency(t, D)` returns true iff some
`d ∈ D` reaches `t` by a path of **at least one** dependents edge; a
self-dependency `d = t` is flagged only when the graph already contains a
non-trivial path from `t` back to itself.  The call never mutates the graph:
in this model the function is pure and returns only the verdict. -/
theorem claim_C2_amended (dm : DependencyManager) (task_id : Nat)
    (deps : List Nat) :
    dm.has_circular_dependency task_id deps = true ↔
      ∃ d ∈ deps, DependencyManager.Reaches dm d task_id :=
  DependencyManager.has_circular_dependency_iff dm task_id deps

/-- **C5** (code bug).  A submission whose dependency list would close a
cycle does not always fail: on a fresh scheduler, submitting a task whose
dependency list names the id the task itself is about to receive (ids are
handed out sequentially, so the next id is predictable) closes the cycle
1 → 1, yet the call succeeds.  The cycle guard runs before the task is
inserted and inspects only already-registered edges — no edge can yet lead
to the fresh id — and the dependency-existence check afterwards finds the
just-inserted task itself.  The call returns ok 1 and commits the self-loop
edge 1 → 1 with a pending count of 1, so the dependency graph now contains a
path from 1 back to 1 and the task waits on its own completion. -/
theorem claim_C5_self_cycle :
    (submit_task initState .NORMAL [1]).1 = .ok 1 ∧
    lookupA (submit_task initState .NORMAL [1]).2.dm.dependents 1 = some [1] ∧
    lookupA (submit_task initState .NORMAL [1]).2.dm.dependency_count 1 = some 1 ∧
    lookupA (submit_task initState .NORMAL [1]).2.all_tasks 1 =
      some { mkTask 1 .NORMAL with dependencies := [1] } ∧
    DependencyManager.Reaches (submit_task initState .NORMAL [1]).2.dm 1 1 := by
  refine ⟨by decide, by decide, by decide, by decide, ?_⟩
  exact DependencyManager.Reaches.single (by decide)

/-- **C6**.  `mark_completed(t)` decrements the remaining-dependency count of
each registered dependent of `t` that has a count entry exactly once (erasing
the entry when it reaches zero), returns exactly the dependents whose count
was 1, removes `t` from the dependents map leaving all other entries alone,
and leaves every count entry of a non-dependent untouched; if `t` has no
registered dependents, the call returns the empty list and changes nothing. -/
theorem claim_C6_mark_completed (dm : DependencyManager)
    (hnd : ∀ p ∈ dm.dependents, p.2.Nodup) :
    (∀ t ds, lookupA dm.dependents t = some ds →
      (∀ d c, d ∈ ds → lookupA dm.dependency_count d = some c →
        lookupA (dm.mark_completed t).2.dependency_count d =
          if c = 1 then none else some (c - 1)) ∧
      (∀ r, r ∈ (dm.mark_completed t).1 ↔
        r ∈ ds ∧ lookupA dm.dependency_count r = some 1) ∧
      lookupA (dm.mark_completed t).2.dependents t = none ∧
      (∀ a, a ≠ t →
        lookupA (dm.mark_completed t).2.dependents a = lookupA dm.dependents a) ∧
      (∀ k, k ∉ ds →
        lookupA (dm.mark_completed t).2.dependency_count k =
          lookupA dm.dependency_count k)) ∧
    (∀ t, lookupA dm.dependents t = none → dm.mark_completed t = ([], dm)) := by
  constructor
  · intro t ds hds
    have hnds : ds.Nodup := hnd (t, ds) (lookupA_mem hds)
    have hmk : dm.mark_completed t =
        ((DependencyManager.markLoop dm.dependency_count ds).1,
          ⟨eraseA dm.dependents t, (DependencyManager.markLoop dm.dependency_count ds).2⟩) := by
      unfold DependencyManager.mark_completed
      rw [hds]
    refine ⟨?_, ?_, ?_, ?_, ?_⟩
    · intro d c hd hc
      rw [hmk]
      simp only
      rw [DependencyManager.markLoop_lookup_mem _ _ _ hnds hd, hc]
    · intro r
      rw [hmk]
      simp only
      exact DependencyManager.markLoop_ready_iff _ _ _ hnds
    · rw [hmk]
      simp only
      exact lookupA_eraseA_self _ _
    · intro a ha
      rw [hmk]
      simp only
      exact lookupA_eraseA_ne _ _ _ (fun h => ha h.symm)
    · intro k hk
      rw [hmk]
      simp only
      exact DependencyManager.markLoop_lookup_not_mem _ _ _ hk
  · intro t ht
    exact DependencyManager.mark_completed_none dm t ht

theorem claim_C6_witness :
    lookupA (DependencyManager.mark_completed
      ⟨[(1, [2, 3])], [(2, 1), (3, 2)]⟩ 1).2.dependents 1 = none ∧
    (2 ∈ (DependencyManager.mark_completed ⟨[(1, [2, 3])], [(2, 1), (3, 2)]⟩ 1).1 ↔
      2 ∈ [2, 3] ∧ lookupA [(2, (1 : Int)), (3, 2)] 2 = some 1) ∧
    lookupA (DependencyManager.mark_completed
      ⟨[(1, [2, 3])], [(2, 1), (3, 2)]⟩ 1).2.dependency_count 3 =
      (if (2 : Int) = 1 then none else some (2 - 1)) := by
  have h := claim_C6_mark_completed ⟨[(1, [2, 3])], [(2, 1), (3, 2)]⟩ (by decide)
  have h2 := h.1 1 [2, 3] (by decide)
  exact ⟨h2.2.2.1, h2.2.1 2, h2.1 3 2 (by decide) (by decide)⟩

/-- **C7**.  `cancel_task` on a known id: a Pending/Ready task is cancelled
(status becomes Cancelled, it is purged from both DependencyManager maps and
scrubbed out of every dependents set) and the call returns true; a Running
task only gets the cooperative cancel flag (status stays Running, graph
untouched) and the call returns true; a Completed/Cancelled task yields false
with the whole state unchanged. -/
theorem claim_C7_cancel_semantics (s : SchedulerState) (id : Nat) (t : Task)
    (hl : lookupA s.all_tasks id = some t) :
    (t.state = .PENDING ∨ t.state = .READY →
      (cancel_task s id).1 = true ∧
      get_task_status (cancel_task s id).2 id = .ok .CANCELLED ∧
      lookupA (cancel_task s id).2.dm.dependency_count id = none ∧
      lookupA (cancel_task s id).2.dm.dependents id = none ∧
      (∀ a ds, lookupA (cancel_task s id).2.dm.dependents a = some ds → id ∉ ds)) ∧
    (t.state = .RUNNING →
      (cancel_task s id).1 = true ∧
      get_task_status (cancel_task s id).2 id = .ok .RUNNING ∧
      (∃ t', lookupA (cancel_task s id).2.all_tasks id = some t' ∧
        t'.cancelRequested = true) ∧
      (cancel_task s id).2.dm = s.dm) ∧
    (t.state = .COMPLETED ∨ t.state = .CANCELLED →
      cancel_task s id = (false, s)) := by
  refine ⟨?_, ?_, ?_⟩
  · intro hpr
    rw [cancel_task_pr s id t hl hpr]
    refine ⟨rfl, ?_, ?_, ?_, ?_⟩
    · unfold get_task_status
      simp only
      rw [lookupA_insertA_self]
    · simp only
      rw [DependencyManager.remove_task_count]
      simp
    · simp only
      rw [DependencyManager.remove_task_dependents]
      simp
    · intro a ds hds
      simp only at hds
      rw [DependencyManager.remove_task_dependents] at hds
      by_cases ha : a = id
      · simp [ha] at hds
      · simp only [ha, if_false] at hds
        cases hla : lookupA s.dm.dependents a with
        | none => rw [hla] at hds; cases hds
        | some ds₀ =>
          rw [hla] at hds
          have : ds₀.filter (fun x => x ≠ id) = ds := Option.some_inj.1 hds
          rw [← this]
          intro hmem
          have := List.mem_filter.1 hmem
          simp at this
  · intro hrun
    rw [cancel_task_running s id t hl hrun]
    refine ⟨rfl, ?_, ?_, rfl⟩
    · unfold get_task_status
      simp only
      rw [lookupA_insertA_self]
      simp [hrun]
    · exact ⟨{ t with cancelRequested := true }, by simp [lookupA_insertA_self], rfl⟩
  · intro hterm
    exact cancel_task_term s id t hl hterm

theorem claim_C7_witness :
    (cancel_task (submit_task initState .NORMAL []).2 1).1 = true ∧
    get_task_status (cancel_task (submit_task initState .NORMAL []).2 1).2 1 =
      .ok .CANCELLED := by
  have h := claim_C7_cancel_semantics (submit_task initState .NORMAL []).2 1
    { mkTask 1 .NORMAL with state := .READY } (by decide)
  have h2 := h.1 (Or.inr rfl)
  exact ⟨h2.1, h2.2.1⟩

/-- **C10**.  An id absent from the task table makes `cancel_task` return
false without raising any error and without touching the state, while
`get_task_status` and `get_task_future` fail with an error on the same id. -/
theorem claim_C10_unknown_id (s : SchedulerState) (id : Nat)
    (h : lookupA s.all_tasks id = none) :
    cancel_task s id = (false, s) ∧
    get_task_status s id = .error "Task not found" ∧
    get_task_future s id = .error "Task not found" := by
  refine ⟨cancel_task_none s id h, ?_, ?_⟩ <;>
    simp [get_task_status, get_task_future, h]

theorem claim_C10_witness :
    cancel_task initState 7 = (false, initState) ∧
    get_task_status initState 7 = .error "Task not found" ∧
    get_task_future initState 7 = .error "Task not found" :=
  claim_C10_unknown_id initState 7 rfl

theorem priNat_inj {x y : Priority} (h : priNat x = priNat y) : x = y := by
  cases x <;> cases y <;> first | rfl | (simp [priNat] at h)

theorem taskComparator_iff (a b : Task) :
    TaskComparator a b = true ↔
      priNat a.priority < priNat b.priority ∨
      (a.priority = b.priority ∧ b.id < a.id) := by
  unfold TaskComparator
  by_cases h : a.priority = b.priority
  · simp [h, Nat.lt_irrefl]
  · have h' : ¬ priNat a.priority = priNat b.priority := fun he => h (priNat_inj he)
    simp [h]

/-- **C8**.  The ready queue's comparator is a strict weak ordering (it is
irreflexive, asymmetric, transitive, and negatively transitive, which makes
incomparability transitive) under which any task of higher priority precedes
any of lower priority and, within a priority level, the task with the smaller
id precedes the others; and `pop`, `try_pop` and `try_pop_for` all return an
element of the queue that no other queued element strictly exceeds. -/
theorem claim_C8_queue_ordering :
    (∀ a, TaskComparator a a = false) ∧
    (∀ a b, TaskComparator a b = true → TaskComparator b a = false) ∧
    (∀ a b c, TaskComparator a b = true → TaskComparator b c = true →
      TaskComparator a c = true) ∧
    (∀ a b c, TaskComparator a b = false → TaskComparator b c = false →
      TaskComparator a c = false) ∧
    (∀ a b, priNat b.priority < priNat a.priority → TaskComparator b a = true) ∧
    (∀ a b, a.priority = b.priority → a.id < b.id → TaskComparator b a = true) ∧
    (∀ (q : ThreadSafePriorityQueue) (m : Task) (q' : ThreadSafePriorityQueue),
      q.try_pop = (some m, q') →
      m ∈ q.elems ∧ ∀ x ∈ q.elems, TaskComparator m x = false) ∧
    (∀ (q : ThreadSafePriorityQueue) (h : q.elems ≠ [])
        (m : Task) (q' : ThreadSafePriorityQueue),
      q.pop h = (some m, q') →
      m ∈ q.elems ∧ ∀ x ∈ q.elems, TaskComparator m x = false) ∧
    (∀ (q : ThreadSafePriorityQueue) (timeout_ms : Nat)
        (m : Task) (q' : ThreadSafePriorityQueue),
      q.try_pop_for timeout_ms = (some m, q') →
      m ∈ q.elems ∧ ∀ x ∈ q.elems, TaskComparator m x = false) := by
  have hirr : ∀ a, TaskComparator a a = false := by
    intro a
    cases hx : TaskComparator a a
    · rfl
    · rw [taskComparator_iff] at hx
      rcases hx with h | ⟨_, h⟩ <;> omega
  have hasym : ∀ a b, TaskComparator a b = true → TaskComparator b a = false := by
    intro a b hab
    rw [taskComparator_iff] at hab
    cases hx : TaskComparator b a
    · rfl
    · rw [taskComparator_iff] at hx
      rcases hab with h | ⟨he, h⟩ <;> rcases hx with h' | ⟨he', h'⟩ <;>
        first
          | omega
          | (rw [he] at h'; omega)
          | (rw [he'] at h; omega)
  have htrans : ∀ a b c, TaskComparator a b = true → TaskComparator b c = true →
      TaskComparator a c = true := by
    intro a b c hab hbc
    rw [taskComparator_iff] at hab hbc ⊢
    rcases hab with h | ⟨he, h⟩ <;> rcases hbc with h' | ⟨he', h'⟩
    · exact Or.inl (Nat.lt_trans h h')
    · rw [← he'] at *
      exact Or.inl h
    · rw [he] at *
      exact Or.inl h'
    · exact Or.inr ⟨he.trans he', by omega⟩
  have hneg : ∀ a b c, TaskComparator a b = false → TaskComparator b c = false →
      TaskComparator a c = false := by
    intro a b c hab hbc
    cases hx : TaskComparator a c
    · rfl
    · exfalso
      rw [taskComparator_iff] at hx
      have hab' : ¬ (priNat a.priority < priNat b.priority ∨
          (a.priority = b.priority ∧ b.id < a.id)) := by
        rw [← taskComparator_iff]
        simp [hab]
      have hbc' : ¬ (priNat b.priority < priNat c.priority ∨
          (b.priority = c.priority ∧ c.id < b.id)) := by
        rw [← taskComparator_iff]
        simp [hbc]
      push_neg at hab' hbc'
      rcases hx with h | ⟨he, h⟩
      · have h1 := hab'.1
        have h2 := hbc'.1
        omega
      · have h1 := hab'.1
        have h2 := hbc'.1
        have heq : priNat a.priority = priNat c.priority := by rw [he]
        have heab : priNat a.priority = priNat b.priority := by omega
        have hab2 := hab'.2 (priNat_inj heab)
        have hbc2 := hbc'.2 (priNat_inj (by omega))
        omega
  have hpop : ∀ (q : ThreadSafePriorityQueue) (m : Task) (q' : ThreadSafePriorityQueue),
      q.try_pop = (some m, q') →
      m ∈ q.elems ∧ ∀ x ∈ q.elems, TaskComparator m x = false := by
    intro q m q' hq
    unfold ThreadSafePriorityQueue.try_pop ThreadSafePriorityQueue.top at hq
    cases hel : q.elems with
    | nil =>
      rw [hel] at hq
      cases hq
    | cons x xs =>
      rw [hel] at hq
      simp only [Prod.mk.injEq, Option.some_inj] at hq
      obtain ⟨hm, _⟩ := hq
      subst hm
      exact ⟨chooseMax_mem _ x xs, chooseMax_not_lt _ hasym hneg x xs⟩
  refine ⟨hirr, hasym, htrans, hneg, ?_, ?_, hpop, ?_, ?_⟩
  · intro a b hlt
    rw [taskComparator_iff]
    exact Or.inl hlt
  · intro a b he hid
    rw [taskComparator_iff]
    exact Or.inr ⟨he.symm, hid⟩
  · intro q h m q' hq
    exact hpop q m q' hq
  · intro q timeout m q' hq
    exact hpop q m q' hq

theorem claim_C8_witness :
    (⟨[mkTask 1 .NORMAL, mkTask 2 .HIGH]⟩ : ThreadSafePriorityQueue).try_pop =
      (some (mkTask 2 .HIGH), ⟨[mkTask 1 .NORMAL]⟩) ∧
    mkTask 2 .HIGH ∈ [mkTask 1 .NORMAL, mkTask 2 .HIGH] ∧
    (∀ x ∈ [mkTask 1 .NORMAL, mkTask 2 .HIGH],
      TaskComparator (mkTask 2 .HIGH) x = false) := by
  have h := claim_C8_queue_ordering.2.2.2.2.2.2.1
    ⟨[mkTask 1 .NORMAL, mkTask 2 .HIGH]⟩ (mkTask 2 .HIGH) ⟨[mkTask 1 .NORMAL]⟩
    (by decide)
  exact ⟨by decide, h.1, h.2⟩

/-- **C9**.  After `shutdown()`: `pending_tasks` is 0 and the ready queue is
empty (the queue is cleared, the DependencyManager's maps dropped); every
task that was Pending or Ready at shutdown time reads Cancelled afterwards;
and every later `submit_task` call — immediately or after any further
steps — fails without creating a task or changing anything (the shutdown
flag is never cleared). -/
theorem claim_C9_shutdown_drains (s : SchedulerState) :
    pending_tasks (shutdown s) = 0 ∧
    (shutdown s).ready_queue = [] ∧
    (∀ k t, lookupA s.all_tasks k = some t →
      t.state = .PENDING ∨ t.state = .READY →
      ∃ t', lookupA (shutdown s).all_tasks k = some t' ∧ t'.state = .CANCELLED) ∧
    (∀ s₂ (p : Priority) (deps : List Nat), StepStar (shutdown s) s₂ →
      (submit_task s₂ p deps).1 =
        .error "Cannot submit task: scheduler is shutting down" ∧
      (submit_task s₂ p deps).2 = s₂) := by
  refine ⟨rfl, rfl, ?_, ?_⟩
  · intro k t hl hpr
    refine ⟨cancelIfNotStarted t, ?_, ?_⟩
    · show lookupA (s.all_tasks.map (fun p => (p.1, cancelIfNotStarted p.2))) k = _
      rw [DependencyManager.lookupA_map_values, hl]
      rfl
    · simp [cancelIfNotStarted, hpr]
  · intro s₂ p deps hstar
    have hflag : s₂.shutdown_requested = true := stepStar_shutdown_mono hstar rfl
    rw [submit_task_shutdown s₂ p deps hflag]
    exact ⟨rfl, rfl⟩

theorem claim_C9_witness :
    pending_tasks (shutdown (submit_task initState .NORMAL []).2) = 0 ∧
    (shutdown (submit_task initState .NORMAL []).2).ready_queue = [] ∧
    (∃ t', lookupA (shutdown (submit_task initState .NORMAL []).2).all_tasks 1 =
      some t' ∧ t'.state = .CANCELLED) ∧
    (submit_task (shutdown (submit_task initState .NORMAL []).2) .LOW []).1 =
      .error "Cannot submit task: scheduler is shutting down" := by
  have h := claim_C9_shutdown_drains (submit_task initState .NORMAL []).2
  refine ⟨h.1, h.2.1, ?_, ?_⟩
  · exact h.2.2.1 1 { mkTask 1 .NORMAL with state := .READY } (by decide) (Or.inr rfl)
  · exact (h.2.2.2 _ .LOW [] Relation.ReflTransGen.refl).1

/-! ### Helpers for the dependency-ordering claim -/

/-- A successful `submit_task` hands back the id the counter held. -/
theorem submit_ok_id (s : SchedulerState) (p : Priority) (deps : List Nat) (n : Nat)
    (hok : (submit_task s p deps).1 = .ok n) : n = s.next_task_id := by
  unfold submit_task at hok
  by_cases hs : s.shutdown_requested = true
  · rw [if_pos hs] at hok
    cases hok
  · rw [if_neg hs] at hok
    simp only at hok
    by_cases hcy : deps ≠ [] ∧ s.dm.has_circular_dependency s.next_task_id deps = true
    · rw [if_pos hcy] at hok
      cases hok
    · rw [if_neg hcy] at hok
      by_cases hd0 : deps = []
      · rw [if_pos hd0] at hok
        simp only at hok
        exact (Except.ok.inj hok).symm
      · rw [if_neg hd0] at hok
        cases hres : addDepsLoop
            { s with
                all_tasks := insertA s.all_tasks s.next_task_id (mkTask s.next_task_id p),
                next_task_id := s.next_task_id + 1 }
            s.next_task_id deps with
        | mk r s₃ =>
          rw [hres] at hok
          cases r with
          | error e => cases hok
          | ok u =>
            simp only at hok
            exact (Except.ok.inj hok).symm

/-- `submit_task` never disturbs a table entry that was already present. -/
theorem submit_lookup_old (s : SchedulerState) (p : Priority) (deps : List Nat)
    (hinv : Inv s) (k : Nat) (t : Task) (hl : lookupA s.all_tasks k = some t) :
    lookupA (submit_task s p deps).2.all_tasks k = some t := by
  have hkn : k ≠ s.next_task_id := by
    have := lookup_lt_next s hinv hl
    omega
  by_cases hs : s.shutdown_requested = true
  · rw [submit_task_shutdown s p deps hs]
    exact hl
  · have hs' : s.shutdown_requested = false := by
      revert hs; cases s.shutdown_requested <;> simp
    by_cases hd0 : deps = []
    · subst hd0
      rw [submit_task_nodeps s p hs']
      show lookupA (insertA s.all_tasks s.next_task_id _) k = some t
      rw [lookupA_insertA]
      rw [if_neg (fun h => hkn h.symm)]
      exact hl
    · by_cases hc : s.dm.has_circular_dependency s.next_task_id deps = true
      · rw [submit_task_cycle s p deps hs' hd0 hc]
        exact hl
      · have hc' : s.dm.has_circular_dependency s.next_task_id deps = false := by
          revert hc; cases s.dm.has_circular_dependency s.next_task_id deps <;> simp
        obtain ⟨h2, _⟩ := submit_task_deps s p deps hs' hd0 hc'
        rw [h2]
        rw [(addDepsLoop_frame s.next_task_id deps _).2.2.2 k hkn]
        show lookupA (insertA s.all_tasks s.next_task_id _) k = some t
        rw [lookupA_insertA]
        rw [if_neg (fun h => hkn h.symm)]
        exact hl

/-- `start_probe` never disturbs the table entry of a Pending task: the popped
id is Ready or Cancelled, never Pending. -/
theorem probe_lookup_pending (s : SchedulerState) (hinv : Inv s) (k : Nat) (t : Task)
    (hl : lookupA s.all_tasks k = some t) (hpend : t.state = .PENDING) :
    lookupA (start_probe s).all_tasks k = some t := by
  unfold start_probe
  cases hpop : popMaxQ s with
  | none => exact hl
  | some pr =>
    obtain ⟨pid, q'⟩ := pr
    dsimp only
    by_cases hsd : s.shutdown_requested = true
    · rw [if_pos hsd]
      exact hl
    · rw [if_neg hsd]
      cases hlp : lookupA s.all_tasks pid with
      | none => exact hl
      | some u =>
        dsimp only
        have hkp : pid ≠ k := by
          rintro rfl
          rw [hl] at hlp
          obtain rfl := Option.some_inj.1 hlp
          obtain ⟨tq, hltq, hq⟩ := hinv.q_sub pid (popMaxQ_spec hpop).1
          rw [hl] at hltq
          obtain rfl := Option.some_inj.1 hltq
          rcases hq with h | h <;> rw [hpend] at h <;> cases h
        by_cases hcr : u.cancelRequested = true
        · rw [if_pos hcr]
          show lookupA (insertA s.all_tasks pid _) k = some t
          rw [lookupA_insertA, if_neg hkp]
          exact hl
        · rw [if_neg hcr]
          show lookupA (insertA s.all_tasks pid _) k = some t
          rw [lookupA_insertA, if_neg hkp]
          exact hl

/-- After `cancel_task`, a task that was Pending is never found Ready. -/
theorem cancel_pending_not_ready (s : SchedulerState) (id k : Nat) (t t' : Task)
    (hl : lookupA s.all_tasks k = some t) (hpend : t.state = .PENDING)
    (hl' : lookupA (cancel_task s id).2.all_tasks k = some t') :
    t'.state ≠ .READY := by
  cases hlc : lookupA s.all_tasks id with
  | none =>
    rw [cancel_task_none s id hlc] at hl'
    obtain rfl := Option.some_inj.1 (hl.symm.trans hl')
    rw [hpend]
    decide
  | some u =>
    by_cases hpr : u.state = .PENDING ∨ u.state = .READY
    · rw [cancel_task_pr s id u hlc hpr] at hl'
      dsimp only at hl'
      rw [lookupA_insertA] at hl'
      by_cases hik : id = k
      · rw [if_pos hik] at hl'
        obtain rfl := Option.some_inj.1 hl'
        simp
      · rw [if_neg hik] at hl'
        obtain rfl := Option.some_inj.1 (hl.symm.trans hl')
        rw [hpend]
        decide
    · by_cases hrun : u.state = .RUNNING
      · rw [cancel_task_running s id u hlc hrun] at hl'
        dsimp only at hl'
        rw [lookupA_insertA] at hl'
        by_cases hik : id = k
        · rw [if_pos hik] at hl'
          obtain rfl := Option.some_inj.1 hl'
          show u.state ≠ .READY
          rw [hrun]
          decide
        · rw [if_neg hik] at hl'
          obtain rfl := Option.some_inj.1 (hl.symm.trans hl')
          rw [hpend]
          decide
      · have hterm : u.state = .COMPLETED ∨ u.state = .CANCELLED := by
          cases hstu : u.state with
          | PENDING => exact absurd (Or.inl hstu) hpr
          | READY => exact absurd (Or.inr hstu) hpr
          | RUNNING => exact absurd hstu hrun
          | COMPLETED => exact Or.inl rfl
          | CANCELLED => exact Or.inr rfl
        rw [cancel_task_term s id u hlc hterm] at hl'
        obtain rfl := Option.some_inj.1 (hl.symm.trans hl')
        rw [hpend]
        decide

/-- `finish_task` on a Running task with no registered dependents. -/
theorem finish_task_none_deps (s : SchedulerState) (id : Nat) (u : Task)
    (hl : lookupA s.all_tasks id = some u) (hrun : u.state = .RUNNING)
    (hdl : lookupA s.dm.dependents id = none) :
    finish_task s id =
      { s with all_tasks :=
          insertA s.all_tasks id { u with state := .COMPLETED, executed := true } } := by
  simp [finish_task, hl, hrun, DependencyManager.mark_completed, hdl, pushReady]

/-- `finish_task` on a Running task with registered dependents `ds`. -/
theorem finish_task_some_deps (s : SchedulerState) (id : Nat) (u : Task) (ds : List Nat)
    (hl : lookupA s.all_tasks id = some u) (hrun : u.state = .RUNNING)
    (hdl : lookupA s.dm.dependents id = some ds) :
    finish_task s id =
      pushReady
        { s with
            all_tasks := insertA s.all_tasks id { u with state := .COMPLETED, executed := true },
            dm := ⟨eraseA s.dm.dependents id,
                   (DependencyManager.markLoop s.dm.dependency_count ds).2⟩ }
        (DependencyManager.markLoop s.dm.dependency_count ds).1 := by
  simp [finish_task, hl, hrun, DependencyManager.mark_completed, hdl]

/-- **C3**.  Dependency ordering: (1) in every reachable state, a Ready or
Running task has all its recorded dependencies Completed; (2) a successful
`submit_task` records exactly the submitted dependency list on the new task,
which starts Pending when that list is non-empty; (3) the only step that
moves a task from Pending to Ready is the completion of a dependency `d`
which was the last not-yet-completed one: before the step `d` was not
Completed and every other recorded dependency was, and after the step `d`
is Completed.  (Parts of `Task::execute` are modelled from the spec, its
body being absent from the sources.) -/
theorem claim_C3_dependency_ordering :
    (∀ s, Reachable s → ∀ k t, lookupA s.all_tasks k = some t →
      t.state = .READY ∨ t.state = .RUNNING →
      ∀ d ∈ t.dependencies, stateOf s d = some .COMPLETED) ∧
    (∀ (s : SchedulerState) (p : Priority) (deps : List Nat) (n : Nat),
      (submit_task s p deps).1 = .ok n →
      ∃ t, lookupA (submit_task s p deps).2.all_tasks n = some t ∧
        t.dependencies = deps ∧ (deps ≠ [] → t.state = .PENDING)) ∧
    (∀ s s' k t t', Reachable s → Step s s' →
      lookupA s.all_tasks k = some t → t.state = .PENDING →
      lookupA s'.all_tasks k = some t' → t'.state = .READY →
      ∃ d ∈ t.dependencies, stateOf s d ≠ some .COMPLETED ∧
        stateOf s' d = some .COMPLETED ∧
        ∀ e ∈ t.dependencies, e ≠ d → stateOf s e = some .COMPLETED) := by
  refine ⟨?_, ?_, ?_⟩
  · intro s hreach k t hl hrr d hd
    refine (reachable_inv hreach).ready_closed k t hl ?_ d hd
    rcases hrr with h | h
    · exact Or.inl h
    · exact Or.inr (Or.inl h)
  · intro s p deps n hok
    obtain rfl := submit_ok_id s p deps n hok
    by_cases hs : s.shutdown_requested = true
    · rw [submit_task_shutdown s p deps hs] at hok
      cases hok
    · have hs' : s.shutdown_requested = false := by
        revert hs; cases s.shutdown_requested <;> simp
      by_cases hd0 : deps = []
      · subst hd0
        rw [submit_task_nodeps s p hs']
        refine ⟨{ mkTask s.next_task_id p with state := .READY }, ?_, rfl, ?_⟩
        · show lookupA (insertA s.all_tasks s.next_task_id _) s.next_task_id = _
          exact lookupA_insertA_self _ _ _
        · intro h
          exact absurd rfl h
      · by_cases hc : s.dm.has_circular_dependency s.next_task_id deps = true
        · rw [submit_task_cycle s p deps hs' hd0 hc] at hok
          cases hok
        · have hc' : s.dm.has_circular_dependency s.next_task_id deps = false := by
            revert hc
            cases s.dm.has_circular_dependency s.next_task_id deps <;> simp
          obtain ⟨h2, hiff⟩ := submit_task_deps s p deps hs' hd0 hc'
          have hloop := hiff.1 hok
          obtain ⟨t', hl', hdeps, hst⟩ :=
            addDepsLoop_ok s.next_task_id deps
              { s with
                  all_tasks := insertA s.all_tasks s.next_task_id (mkTask s.next_task_id p),
                  next_task_id := s.next_task_id + 1 }
              (mkTask s.next_task_id p)
              (by
                show lookupA (insertA s.all_tasks s.next_task_id _) s.next_task_id = _
                exact lookupA_insertA_self _ _ _)
              hloop
          rw [h2]
          refine ⟨t', hl', ?_, fun _ => ?_⟩
          · rw [hdeps]
            rfl
          · rw [hst]
            rfl
  · intro s s' k t t' hreach hstep hl hpend hl' hready
    have hinv := reachable_inv hreach
    cases hstep with
    | submit p deps =>
      obtain rfl := Option.some_inj.1 ((submit_lookup_old s p deps hinv k t hl).symm.trans hl')
      simp [hpend] at hready
    | cancel id =>
      exact absurd hready (cancel_pending_not_ready s id k t t' hl hpend hl')
    | probe =>
      obtain rfl := Option.some_inj.1 ((probe_lookup_pending s hinv k t hl hpend).symm.trans hl')
      simp [hpend] at hready
    | shut =>
      have hmap : lookupA (shutdown s).all_tasks k = some (cancelIfNotStarted t) := by
        show lookupA (s.all_tasks.map _) k = _
        rw [DependencyManager.lookupA_map_values, hl]
        rfl
      obtain rfl := Option.some_inj.1 (hmap.symm.trans hl')
      simp [cancelIfNotStarted, hpend] at hready
    | finish id =>
      cases hlf : lookupA s.all_tasks id with
      | none =>
        have hfe : finish_task s id = s := by
          unfold finish_task
          rw [hlf]
        rw [hfe] at hl'
        obtain rfl := Option.some_inj.1 (hl.symm.trans hl')
        simp [hpend] at hready
      | some u =>
        by_cases hrun : u.state = .RUNNING
        · by_cases hkid : k = id
          · subst hkid
            rw [hl] at hlf
            obtain rfl := Option.some_inj.1 hlf
            rw [hpend] at hrun
            cases hrun
          · cases hdl : lookupA s.dm.dependents id with
            | none =>
              rw [finish_task_none_deps s id u hlf hrun hdl] at hl'
              dsimp only at hl'
              rw [lookupA_insertA] at hl'
              rw [if_neg (fun h => hkid h.symm)] at hl'
              obtain rfl := Option.some_inj.1 (hl.symm.trans hl')
              simp [hpend] at hready
            | some ds =>
              by_cases hkR : k ∈ (DependencyManager.markLoop s.dm.dependency_count ds).1
              · obtain ⟨tr, hltr, hpendtr, hneid, hidmem, hall⟩ :=
                  finish_ready_facts s id u ds hinv hlf hrun hdl k hkR
                have htt : tr = t := Option.some_inj.1 (hltr.symm.trans hl)
                subst htt
                have hidR : id ∉ (DependencyManager.markLoop s.dm.dependency_count ds).1 := by
                  intro hmem
                  obtain ⟨_, _, _, hne2, _, _⟩ :=
                    finish_ready_facts s id u ds hinv hlf hrun hdl id hmem
                  exact hne2 rfl
                refine ⟨id, hidmem, ?_, ?_, hall⟩
                · simp [stateOf, hlf, hrun]
                · rw [finish_task_some_deps s id u ds hlf hrun hdl]
                  unfold stateOf
                  rw [pushReady_lookup_not_mem _ _ id hidR]
                  dsimp only
                  rw [lookupA_insertA_self]
                  rfl
              · rw [finish_task_some_deps s id u ds hlf hrun hdl] at hl'
                rw [pushReady_lookup_not_mem _ _ k hkR] at hl'
                dsimp only at hl'
                rw [lookupA_insertA] at hl'
                rw [if_neg (fun h => hkid h.symm)] at hl'
                obtain rfl := Option.some_inj.1 (hl.symm.trans hl')
                simp [hpend] at hready
        · have hfe : finish_task s id = s := by
            unfold finish_task
            rw [hlf]
            dsimp only
            rw [if_neg hrun]
          rw [hfe] at hl'
          obtain rfl := Option.some_inj.1 (hl.symm.trans hl')
          simp [hpend] at hready

/-- A scheduler that submitted task 1 (no deps), task 2 depending on 1, and
popped task 1 into Running. -/
def c3s : SchedulerState :=
  start_probe (submit_task (submit_task initState .NORMAL []).2 .HIGH [1]).2

theorem claim_C3_witness :
    Reachable c3s ∧
    lookupA c3s.all_tasks 2 = some { mkTask 2 .HIGH with dependencies := [1] } ∧
    stateOf (finish_task c3s 1) 2 = some .READY ∧
    ∃ d ∈ ({ mkTask 2 .HIGH with dependencies := [1] } : Task).dependencies,
      stateOf c3s d ≠ some .COMPLETED ∧
      stateOf (finish_task c3s 1) d = some .COMPLETED ∧
      ∀ e ∈ ({ mkTask 2 .HIGH with dependencies := [1] } : Task).dependencies,
        e ≠ d → stateOf c3s e = some .COMPLETED := by
  have hreach : Reachable c3s := by
    have h1 : StepStar initState (submit_task initState .NORMAL []).2 :=
      Relation.ReflTransGen.single (Step.submit initState .NORMAL [])
    have h2 := Relation.ReflTransGen.tail h1 (Step.submit _ .HIGH [1])
    exact Relation.ReflTransGen.tail h2 (Step.probe _)
  refine ⟨hreach, by decide, by decide, ?_⟩
  exact claim_C3_dependency_ordering.2.2 c3s (finish_task c3s 1) 2
    { mkTask 2 .HIGH with dependencies := [1] }
    { mkTask 2 .HIGH with dependencies := [1], state := .READY }
    hreach (Step.finish c3s 1) (by decide) (by decide) (by decide) (by decide)

/-! ### Helpers for the cancelled-stays-cancelled claim -/

/-- One step never disturbs a Cancelled, flag-set, never-executed table entry
(the probe may rewrite it, Cancelled again, when it pops the stale queue id). -/
theorem cancelled_frame_step {u u' : SchedulerState} (hstep : Step u u') (hinv : Inv u)
    (id : Nat) (t₂ : Task) (hl : lookupA u.all_tasks id = some t₂)
    (hc : t₂.state = .CANCELLED) (hcr : t₂.cancelRequested = true)
    (hex : t₂.executed = false) :
    ∃ t₃, lookupA u'.all_tasks id = some t₃ ∧ t₃.state = .CANCELLED ∧
      t₃.cancelRequested = true ∧ t₃.executed = false := by
  cases hstep with
  | submit p deps =>
    exact ⟨t₂, submit_lookup_old u p deps hinv id t₂ hl, hc, hcr, hex⟩
  | cancel idc =>
    cases hlc : lookupA u.all_tasks idc with
    | none =>
      rw [cancel_task_none u idc hlc]
      exact ⟨t₂, hl, hc, hcr, hex⟩
    | some w =>
      by_cases hpr : w.state = .PENDING ∨ w.state = .READY
      · have hne : idc ≠ id := by
          rintro rfl
          rw [hl] at hlc
          obtain rfl := Option.some_inj.1 hlc
          rcases hpr with h | h <;> rw [hc] at h <;> cases h
        rw [cancel_task_pr u idc w hlc hpr]
        refine ⟨t₂, ?_, hc, hcr, hex⟩
        dsimp only
        rw [lookupA_insertA, if_neg hne]
        exact hl
      · by_cases hrun : w.state = .RUNNING
        · have hne : idc ≠ id := by
            rintro rfl
            rw [hl] at hlc
            obtain rfl := Option.some_inj.1 hlc
            rw [hc] at hrun
            cases hrun
          rw [cancel_task_running u idc w hlc hrun]
          refine ⟨t₂, ?_, hc, hcr, hex⟩
          dsimp only
          rw [lookupA_insertA, if_neg hne]
          exact hl
        · have hterm : w.state = .COMPLETED ∨ w.state = .CANCELLED := by
            cases hstw : w.state with
            | PENDING => exact absurd (Or.inl hstw) hpr
            | READY => exact absurd (Or.inr hstw) hpr
            | RUNNING => exact absurd hstw hrun
            | COMPLETED => exact Or.inl rfl
            | CANCELLED => exact Or.inr rfl
          rw [cancel_task_term u idc w hlc hterm]
          exact ⟨t₂, hl, hc, hcr, hex⟩
  | probe =>
    unfold start_probe
    cases hpop : popMaxQ u with
    | none => exact ⟨t₂, hl, hc, hcr, hex⟩
    | some pr =>
      obtain ⟨pid, q'⟩ := pr
      dsimp only
      by_cases hsd : u.shutdown_requested = true
      · rw [if_pos hsd]
        exact ⟨t₂, hl, hc, hcr, hex⟩
      · rw [if_neg hsd]
        cases hlp : lookupA u.all_tasks pid with
        | none => exact ⟨t₂, hl, hc, hcr, hex⟩
        | some w =>
          dsimp only
          by_cases hpe : pid = id
          · subst hpe
            rw [hl] at hlp
            obtain rfl := Option.some_inj.1 hlp
            rw [if_pos hcr]
            exact ⟨{ t₂ with state := .CANCELLED }, lookupA_insertA_self _ _ _, rfl, hcr, hex⟩
          · by_cases hcw : w.cancelRequested = true
            · rw [if_pos hcw]
              refine ⟨t₂, ?_, hc, hcr, hex⟩
              show lookupA (insertA u.all_tasks pid _) id = some t₂
              rw [lookupA_insertA, if_neg hpe]
              exact hl
            · rw [if_neg hcw]
              refine ⟨t₂, ?_, hc, hcr, hex⟩
              show lookupA (insertA u.all_tasks pid _) id = some t₂
              rw [lookupA_insertA, if_neg hpe]
              exact hl
  | finish idf =>
    cases hlf : lookupA u.all_tasks idf with
    | none =>
      have hfe : finish_task u idf = u := by
        unfold finish_task
        rw [hlf]
      rw [hfe]
      exact ⟨t₂, hl, hc, hcr, hex⟩
    | some w =>
      by_cases hrun : w.state = .RUNNING
      · have hne : idf ≠ id := by
          rintro rfl
          rw [hl] at hlf
          obtain rfl := Option.some_inj.1 hlf
          rw [hc] at hrun
          cases hrun
        cases hdl : lookupA u.dm.dependents idf with
        | none =>
          rw [finish_task_none_deps u idf w hlf hrun hdl]
          refine ⟨t₂, ?_, hc, hcr, hex⟩
          dsimp only
          rw [lookupA_insertA, if_neg hne]
          exact hl
        | some ds =>
          have hidR : id ∉ (DependencyManager.markLoop u.dm.dependency_count ds).1 := by
            intro hmem
            obtain ⟨tr, hltr, hpendtr, _, _, _⟩ :=
              finish_ready_facts u idf w ds hinv hlf hrun hdl id hmem
            rw [hl] at hltr
            obtain rfl := Option.some_inj.1 hltr
            rw [hc] at hpendtr
            cases hpendtr
          rw [finish_task_some_deps u idf w ds hlf hrun hdl]
          refine ⟨t₂, ?_, hc, hcr, hex⟩
          rw [pushReady_lookup_not_mem _ _ id hidR]
          dsimp only
          rw [lookupA_insertA, if_neg hne]
          exact hl
      · have hfe : finish_task u idf = u := by
          unfold finish_task
          rw [hlf]
          dsimp only
          rw [if_neg hrun]
        rw [hfe]
        exact ⟨t₂, hl, hc, hcr, hex⟩
  | shut =>
    refine ⟨t₂, ?_, hc, hcr, hex⟩
    show lookupA (u.all_tasks.map _) id = some t₂
    rw [DependencyManager.lookupA_map_values, hl]
    simp [cancelIfNotStarted, hc]

/-- Along any run from an invariant-holding state, a Cancelled, flag-set,
never-executed entry stays that way. -/
theorem cancelled_frame_star {u u' : SchedulerState} (h : StepStar u u') (hinv : Inv u) :
    ∀ (id : Nat) (t₂ : Task), lookupA u.all_tasks id = some t₂ →
    t₂.state = .CANCELLED → t₂.cancelRequested = true → t₂.executed = false →
    ∃ t₃, lookupA u'.all_tasks id = some t₃ ∧ t₃.state = .CANCELLED ∧
      t₃.cancelRequested = true ∧ t₃.executed = false := by
  induction h with
  | refl =>
    intro id t₂ hl hc hcr hex
    exact ⟨t₂, hl, hc, hcr, hex⟩
  | tail hstar hstep ih =>
    intro id t₂ hl hc hcr hex
    obtain ⟨t₃, hl₃, hc₃, hcr₃, hex₃⟩ := ih id t₂ hl hc hcr hex
    exact cancelled_frame_step hstep (inv_stepStar hstar hinv) id t₃ hl₃ hc₃ hcr₃ hex₃

/-- **C4**.  Cancelling a Ready task before any worker pops it: `cancel_task`
returns true, and in every state reachable from the cancelled one the task
has never executed its callable and `get_task_status` reports Cancelled —
including across the probe that later pops the stale queue entry, which
observes the cancel flag and does not run the task.  (The execute-side
observation of `cancelRequested` is modelled from the spec, `Task::execute`
being absent from the sources.) -/
theorem claim_C4_cancel_ready (s : SchedulerState) (id : Nat) (t : Task)
    (hreach : Reachable s) (hl : lookupA s.all_tasks id = some t)
    (hready : t.state = .READY) :
    (cancel_task s id).1 = true ∧
    ∀ s₂, StepStar (cancel_task s id).2 s₂ →
      ∃ t₂, lookupA s₂.all_tasks id = some t₂ ∧ t₂.executed = false ∧
        get_task_status s₂ id = .ok .CANCELLED := by
  have hinv := reachable_inv hreach
  have hex : t.executed = false := by
    cases hxe : t.executed
    · rfl
    · have hco := hinv.exec_comp id t hl hxe
      rw [hready] at hco
      cases hco
  have hceq := cancel_task_pr s id t hl (Or.inr hready)
  constructor
  · rw [hceq]
  · intro s₂ hstar
    have hinv₁ : Inv (cancel_task s id).2 := inv_cancel s id hinv
    have hl₁ : lookupA (cancel_task s id).2.all_tasks id =
        some { t with cancelRequested := true, state := .CANCELLED } := by
      rw [hceq]
      dsimp only
      exact lookupA_insertA_self _ _ _
    obtain ⟨t₃, hl₃, hc₃, hcr₃, hex₃⟩ :=
      cancelled_frame_star hstar hinv₁ id _ hl₁ rfl rfl hex
    refine ⟨t₃, hl₃, hex₃, ?_⟩
    unfold get_task_status
    rw [hl₃]
    dsimp only
    rw [hc₃]

theorem claim_C4_witness :
    (cancel_task (submit_task initState .NORMAL []).2 1).1 = true ∧
    (∃ t₂, lookupA
        (start_probe (cancel_task (submit_task initState .NORMAL []).2 1).2).all_tasks 1 =
        some t₂ ∧ t₂.executed = false ∧
      get_task_status (start_probe (cancel_task (submit_task initState .NORMAL []).2 1).2) 1 =
        .ok .CANCELLED) := by
  have h := claim_C4_cancel_ready (submit_task initState .NORMAL []).2 1
    { mkTask 1 .NORMAL with state := .READY }
    (Relation.ReflTransGen.single (Step.submit initState .NORMAL []))
    (by decide) (by decide)
  exact ⟨h.1, h.2 _ (Relation.ReflTransGen.single (Step.probe _))⟩

end TaskSched
